import Mathlib

/-!
Verification of the hybrid planning coordinator (blocks-world instance).
We shallowly embed the coordinator loop (`plan`), the retry logic
(`_solve_subgoal_with_retry`), the action-effect simulator
(`_update_state_after_plan` with its four `_apply_*` helpers), and the
state validator (`_validate_blocks_world_state`), and prove or refute the
specification's claims about them.
-/

/-! ## Token normalization

The simulator parses each action string with
`action_str.strip().replace('(', ' ').replace(')', '').replace(',', ' ')`
followed by whitespace `split()` and a case-fold of the verb.  We model
these string operations at the character-list level. -/

/-- Python `str.strip()`: drop leading and trailing whitespace. -/
def stripWs (l : List Char) : List Char :=
  ((l.dropWhile Char.isWhitespace).reverse.dropWhile Char.isWhitespace).reverse

/-- Python `str.replace(c1, c2)` for single characters. -/
def replaceChar (c1 c2 : Char) (l : List Char) : List Char :=
  l.map fun c => if c = c1 then c2 else c

/-- Python `str.replace(c, '')` for a single character: delete every occurrence. -/
def removeChar (c1 : Char) (l : List Char) : List Char :=
  l.filter fun c => c ≠ c1

/-- Python `str.split()` with no argument: split on whitespace runs,
dropping empty pieces.  `acc` holds the current word reversed. -/
def splitWsAux : List Char → List Char → List (List Char)
  | [], [] => []
  | [], acc => [acc.reverse]
  | c :: rest, acc =>
    if c.isWhitespace then
      if acc = [] then splitWsAux rest []
      else acc.reverse :: splitWsAux rest []
    else splitWsAux rest (c :: acc)

/-- The full normalization pipeline of `_update_state_after_plan`:
strip, replace `'('` by `' '`, delete `')'`, replace `','` by `' '`, split. -/
def normChars (l : List Char) : List (List Char) :=
  splitWsAux (replaceChar ',' ' ' (removeChar ')' (replaceChar '(' ' ' (stripWs l)))) []

/-- Token parts, as strings. -/
def normalizeParts (s : String) : List String :=
  (normChars s.data).map String.mk

/-- Python `str.lower()` (ASCII case fold, as used on the action verb). -/
def pyLower (s : String) : String :=
  String.mk (s.data.map Char.toLower)

/-! ## World state

The Python state is a dict whose keys (`"ontable"`, `"clear"`, `"holding"`,
`"handempty"`, `"on"`) may be absent; the code guards each access with
`in`/`get`.  We model the dict as a record of `Option` fields. -/

structure WorldState where
  ontable : Option (List String)
  clear : Option (List String)
  holding : Option (List String)
  handempty : Option Bool
  onRel : Option (List (String × String))
deriving DecidableEq, Repr

/-- `state.get("ontable", [])`. -/
def otL (s : WorldState) : List String := s.ontable.getD []

/-- `state.get("clear", [])`. -/
def clearL (s : WorldState) : List String := s.clear.getD []

/-- `state.get("holding", [])`. -/
def holdL (s : WorldState) : List String := s.holding.getD []

/-- `state.get("on", [])` (the field `onRel` models the dict key `"on"`,
which Lean reserves as a token). -/
def onL (s : WorldState) : List (String × String) := s.onRel.getD []

/-- Blocks appearing as the top of an `on` pair. -/
def topsL (s : WorldState) : List String := (onL s).map Prod.fst

/-- Blocks appearing as the bottom of an `on` pair. -/
def botsL (s : WorldState) : List String := (onL s).map Prod.snd

/-- Python `if key in state and x in state[key]: state[key].remove(x)`:
erase the first occurrence when the key is present and the element occurs. -/
def eraseIfMem (o : Option (List String)) (b : String) : Option (List String) :=
  o.map fun l => if b ∈ l then l.erase b else l

/-- `_apply_pickup`: remove the block from `ontable` and `clear`, set
`holding = [block]`, and set `handempty = False` when that key is present. -/
def apply_pickup (s : WorldState) (b : String) : WorldState :=
  { s with
    ontable := eraseIfMem s.ontable b
    clear := eraseIfMem s.clear b
    holding := some [b]
    handempty := s.handempty.map fun _ => false }

/-- `_apply_putdown`: remove the block from `holding`, append it to
`ontable` and `clear` (creating those keys if absent), set `handempty = True`. -/
def apply_putdown (s : WorldState) (b : String) : WorldState :=
  { s with
    holding := eraseIfMem s.holding b
    ontable := some ((otL s) ++ [b])
    clear := some ((clearL s) ++ [b])
    handempty := some true }

/-- `_apply_stack`: remove `a` from `holding`, remove `b` from `clear`,
append `(a, b)` to `on`, append `a` to `clear`, set `handempty = True`. -/
def apply_stack (s : WorldState) (a b : String) : WorldState :=
  { s with
    holding := eraseIfMem s.holding a
    onRel := some ((onL s) ++ [(a, b)])
    clear := some (((eraseIfMem s.clear b).getD []) ++ [a])
    handempty := some true }

/-- `_apply_unstack`: rebind `on` to a fresh list with every `(a, b)` pair
filtered out (when the key is present), remove `a` from `clear`, append `b`
to `clear`, set `holding = [a]`, set `handempty = False`. -/
def apply_unstack (s : WorldState) (a b : String) : WorldState :=
  { s with
    onRel := s.onRel.map fun l => l.filter fun p => !(decide (p.1 = a) && decide (p.2 = b))
    clear := some (((eraseIfMem s.clear a).getD []) ++ [b])
    holding := some [a]
    handempty := some false }

/-- One iteration of the simulator loop: normalize the token; skip it when
it has fewer than two parts or an unrecognized verb; dispatch on the verb
otherwise.  A recognized `stack`/`unstack` token with a missing second
operand reads `parts[2]` past the end, which raises `IndexError` in the
source; we model the raise as `Except.error`. -/
def applyTok (s : WorldState) (tok : String) : Except String WorldState :=
  match normalizeParts tok with
  | v :: b :: rest =>
    if pyLower v = "pickup" then .ok (apply_pickup s b)
    else if pyLower v = "putdown" then .ok (apply_putdown s b)
    else if pyLower v = "stack" then
      match rest with
      | b2 :: _ => .ok (apply_stack s b b2)
      | [] => .error "IndexError"
    else if pyLower v = "unstack" then
      match rest with
      | b2 :: _ => .ok (apply_unstack s b b2)
      | [] => .error "IndexError"
    else .ok s
  | _ => .ok s

/-- The state built by `_update_state_after_plan` (blocks world): deep-copy
the input (pure values make the copy implicit) and fold the token loop.
An in-loop exception propagates as `Except.error`. -/
def update_state_after_plan (s : WorldState) : List String → Except String WorldState
  | [] => .ok s
  | t :: ts =>
    match applyTok s t with
    | .ok s' => update_state_after_plan s' ts
    | .error e => .error e

/-- The value `_update_state_after_plan` actually hands back to its caller:
the function body builds `new_state` but ends without a `return` statement,
so on the non-exception path the caller receives Python `None`.  We pair the
exception behavior with the returned value, which is always `none`. -/
def update_state_after_plan_ret (s : WorldState) (plan : List String) :
    Except String (Option WorldState) :=
  (update_state_after_plan s plan).map fun _ => (none : Option WorldState)

/-! ## State validator

`_validate_blocks_world_state` collects the referenced blocks into a set,
then runs three checks, each with an early `return False` at the first
violating block after logging one diagnostic.  We return the bool paired
with the list of diagnostics the function logs before returning (at most
one); Python set iteration order is unspecified, so we fix the `dedup`
order, and only prove order-robust facts. -/

/-- How many of {ontable, holding, top-of-on} a block belongs to
(set membership, as in the validator's `count`). -/
def placedCount (s : WorldState) (x : String) : Nat :=
  (if x ∈ otL s then 1 else 0) + (if x ∈ holdL s then 1 else 0) +
    (if x ∈ topsL s then 1 else 0)

/-- `all_blocks`: every block referenced in ontable, holding, or an `on`
pair (top or bottom). -/
def allBlocks (s : WorldState) : List String :=
  (otL s ++ holdL s ++ topsL s ++ botsL s).dedup

/-- `_validate_blocks_world_state`: check 1 (each referenced block in
exactly one place), check 2 (table blocks with nothing on them are clear),
check 3 (tops of stacks with nothing on them are clear); first violation
logs a diagnostic and returns `False`. -/
def validate (s : WorldState) : Bool × List String :=
  match (allBlocks s).find? (fun b => decide (placedCount s b ≠ 1)) with
  | some b => (false, ["Block " ++ b ++ " is in " ++ toString (placedCount s b) ++ " places"])
  | none =>
    match (otL s).find? (fun b => decide (b ∉ botsL s) && decide (b ∉ clearL s)) with
    | some b => (false, ["Block " ++ b ++ " on table but not clear and nothing on it"])
    | none =>
      match (topsL s).find? (fun b => decide (b ∉ botsL s) && decide (b ∉ clearL s)) with
      | some b => (false, ["Block " ++ b ++ " on top of stack but not clear"])
      | none => (true, [])

/-- Modelled from the spec's words (for refinement comparison only): a
validator that evaluates all three checks of spec section 4.4, collecting
one diagnostic per violated object and check; its check 1 quantifies only
over objects referenced in `on_table`, `holding`, or as a `top`. -/
def validateSpec (s : WorldState) : Bool × List String :=
  let d1 := ((otL s ++ holdL s ++ topsL s).dedup.filter
    (fun b => decide (placedCount s b ≠ 1))).map (fun b => "check1 " ++ b)
  let d2 := ((otL s).dedup.filter
    (fun b => decide (b ∉ botsL s) && decide (b ∉ clearL s))).map (fun b => "check2 " ++ b)
  let d3 := ((topsL s).dedup.filter
    (fun b => decide (b ∉ botsL s) && decide (b ∉ clearL s))).map (fun b => "check3 " ++ b)
  let ds := d1 ++ d2 ++ d3
  (ds.isEmpty, ds)

/-! ## Coordinator: subgoal retry loop and plan composition

`plan` calls the external decomposition capability, then solves the
subgoals sequentially, advancing the state after each success.  The
external solve and adapt capabilities are parameters. -/

/-- One decomposed subgoal, in the structured form requested from the
decomposition capability. -/
structure Subgoal where
  subgoal_id : Nat
  description : String
  formal_goal : String
  prerequisites : List String
  resources_needed : List String
deriving DecidableEq, Repr

/-- The retry loop of `_solve_subgoal_with_retry`, instrumented: `fuel` is
the number of attempts left, `attempt` the 0-based attempt index (used in
the diagnostic string).  Returns the `(success, plan)` result paired with
the number of calls made to the adaptation capability.  Adaptation happens
only when `attempt < max_retries - 1`, i.e. when `fuel > 1`. -/
def solve_retry_go {σ : Type} (solve : Subgoal → σ → Bool × List String)
    (adapt : Subgoal → String → Subgoal) (st : σ) :
    Subgoal → Nat → Nat → (Bool × List String) × Nat
  | _, 0, _ => ((false, []), 0)
  | sg, fuel + 1, attempt =>
    let r := solve sg st
    if r.1 then ((true, r.2), 0)
    else if 0 < fuel then
      let sg' := adapt sg ("Planning failed on attempt " ++ toString (attempt + 1))
      let rec' := solve_retry_go solve adapt st sg' fuel (attempt + 1)
      (rec'.1, rec'.2 + 1)
    else ((false, []), 0)

/-- `_solve_subgoal_with_retry(domain_file, subgoal, current_state,
max_retries)`: the result component of the retry loop. -/
def solve_subgoal_with_retry {σ : Type} (solve : Subgoal → σ → Bool × List String)
    (adapt : Subgoal → String → Subgoal) (sg : Subgoal) (st : σ)
    (maxRetries : Nat) : Bool × List String :=
  (solve_retry_go solve adapt st sg maxRetries 0).1

/-- Number of adaptation-capability calls issued by one
`_solve_subgoal_with_retry` run. -/
def adapt_calls {σ : Type} (solve : Subgoal → σ → Bool × List String)
    (adapt : Subgoal → String → Subgoal) (sg : Subgoal) (st : σ)
    (maxRetries : Nat) : Nat :=
  (solve_retry_go solve adapt st sg maxRetries 0).2

/-- The sequential subgoal loop of `plan`: on a retry failure return
`(False, [])` immediately; on success extend the accumulated plan and
advance the state with `_update_state_after_plan` (passed as `upd`, since
the two coordinator variants differ there). -/
def planLoop {σ : Type} (solve : Subgoal → σ → Bool × List String)
    (adapt : Subgoal → String → Subgoal) (upd : σ → List String → σ) :
    List Subgoal → σ → List String → Bool × List String
  | [], _, acc => (true, acc)
  | sg :: rest, st, acc =>
    let r := solve_subgoal_with_retry solve adapt sg st 3
    if r.1 then planLoop solve adapt upd rest (upd st r.2) (acc ++ r.2)
    else (false, [])

/-- `plan(natural_goal, domain_file, initial_state)`: decompose the goal,
resolve conflicts, then run the sequential loop on a copy of the initial
state (`decomp` and `resolveC` are the external decomposition calls). -/
def plan {σ : Type} (solve : Subgoal → σ → Bool × List String)
    (adapt : Subgoal → String → Subgoal) (upd : σ → List String → σ)
    (decomp : String → String → List Subgoal)
    (resolveC : List Subgoal → σ → List Subgoal)
    (goal domainInfo : String) (st : σ) : Bool × List String :=
  planLoop solve adapt upd (resolveC (decomp goal domainInfo) st) st []

/-! ## Predicates for the invariant and leniency claims -/

/-- A token the simulator skips: fewer than two parts after normalization,
or a verb other than pickup/putdown/stack/unstack. -/
def tokenSkipped (tok : String) : Bool :=
  match normalizeParts tok with
  | v :: _ :: _ =>
    !(decide (pyLower v = "pickup") || decide (pyLower v = "putdown") ||
      decide (pyLower v = "stack") || decide (pyLower v = "unstack"))
  | _ => true

/-- The preconditions stated in the source comments for the action a token
parses to (`true` for skipped tokens, `false` for a recognized two-operand
verb with a missing operand, which raises). -/
def tokLegal (s : WorldState) (tok : String) : Bool :=
  match normalizeParts tok with
  | v :: b :: rest =>
    if pyLower v = "pickup" then
      decide (b ∈ otL s) && decide (b ∈ clearL s) && decide (holdL s = [])
    else if pyLower v = "putdown" then decide (b ∈ holdL s)
    else if pyLower v = "stack" then
      match rest with
      | b2 :: _ => decide (b ∈ holdL s) && decide (b2 ∈ clearL s)
      | [] => false
    else if pyLower v = "unstack" then
      match rest with
      | b2 :: _ => decide ((b, b2) ∈ onL s) && decide (b ∈ clearL s) && decide (holdL s = [])
      | [] => false
    else true
  | _ => true

/-- A token sequence in which every token is applied with its
preconditions satisfied (legal composition run). -/
def legalSeq (s : WorldState) : List String → Bool
  | [] => true
  | t :: ts =>
    tokLegal s t &&
      match applyTok s t with
      | .ok s' => legalSeq s' ts
      | .error _ => false

/-- The exactly-one-place invariant: every block referenced anywhere in
the state (including bottoms of `on` pairs, as the validator collects
them) belongs to exactly one of {ontable, holding, top-of-on}. -/
def PlacedOnce (s : WorldState) : Prop :=
  ∀ x ∈ otL s ++ holdL s ++ topsL s ++ botsL s, placedCount s x = 1

instance (s : WorldState) : Decidable (PlacedOnce s) :=
  List.decidableBAll _ _

/-- Well-formed state: no duplicate table entries, at most one held block,
no block stacked directly on two different blocks, and clear blocks are
placed somewhere.  All hold in the spec's set-based data model. -/
def WFState (s : WorldState) : Prop :=
  (otL s).Nodup ∧ (holdL s).length ≤ 1 ∧ (topsL s).Nodup ∧
    ∀ x ∈ clearL s, x ∈ otL s ∨ x ∈ holdL s ∨ x ∈ topsL s

instance (s : WorldState) : Decidable (WFState s) := by
  unfold WFState; infer_instance

/-! ## Decomposition capability boundary (`llm_interface`)

`decompose_goal`, `resolve_conflicts` and `adapt_plan` all end with
`try: return json.loads(...) except json.JSONDecodeError: return
self._fallback_parse(...)`, but no `_fallback_parse` method exists
anywhere in the repository, so the handler itself raises
`AttributeError`.  `json.loads` is external library code; we take its
outcome (`some` parsed value, or `none` for a `JSONDecodeError`) as the
argument. -/

/-- Outcome of a Python call: a returned value or a propagated exception. -/
inductive PyResult (α : Type) where
  | ok (a : α)
  | exn (msg : String)
deriving DecidableEq, Repr

/-- The exception raised when `self._fallback_parse(...)` is looked up:
the class defines no such attribute. -/
def fallbackParseLookup {α : Type} : PyResult α :=
  .exn "AttributeError: LLMHighlevelPlanner object has no attribute fallback parse"

/-- The response handling of `decompose_goal` (and identically
`resolve_conflicts`): return the parsed JSON, or on `JSONDecodeError` call
the missing `_fallback_parse`. -/
def decompose_goal_handle (parsed : Option (List Subgoal)) : PyResult (List Subgoal) :=
  match parsed with
  | some subgoals => .ok subgoals
  | none => fallbackParseLookup

/-! ## Heap-level model for the no-mutation claim

To state that `plan` and `_update_state_after_plan` never mutate the
caller's state object, we model the Python heap explicitly: list objects
and dict objects live at numbered locations, in-place mutation is a store
update at a location, `copy.deepcopy` allocates fresh cells, and
`dict.copy()` allocates a fresh dict sharing the old field locations. -/

/-- A state dict as a heap object: each present key holds the location of
its (mutable) list object, except `handempty`, whose value is an
immutable bool. -/
structure PyDict where
  ontable : Option Nat
  clear : Option Nat
  holding : Option Nat
  onRel : Option Nat
  handempty : Option Bool
deriving DecidableEq, Repr

/-- The heap: string-list cells, pair-list cells, dict cells, and the next
fresh location (locations are shared across the three kinds, like Python
object ids). -/
structure Heap where
  lists : Nat → List String
  plists : Nat → List (String × String)
  dicts : Nat → PyDict
  next : Nat

/-- Pointwise store update. -/
def updF {α : Type} (f : Nat → α) (k : Nat) (v : α) : Nat → α :=
  fun j => if j = k then v else f j

/-- In-place mutation of the string-list object at `l`. -/
def writeList (h : Heap) (l : Nat) (v : List String) : Heap :=
  { h with lists := updF h.lists l v }

/-- In-place mutation of the pair-list object at `l`. -/
def writePairs (h : Heap) (l : Nat) (v : List (String × String)) : Heap :=
  { h with plists := updF h.plists l v }

/-- In-place mutation of the dict object at `d` (rebinding its keys). -/
def writeDict (h : Heap) (d : Nat) (v : PyDict) : Heap :=
  { h with dicts := updF h.dicts d v }

/-- Allocate a fresh string-list object. -/
def allocList (h : Heap) (v : List String) : Heap × Nat :=
  ({ h with lists := updF h.lists h.next v, next := h.next + 1 }, h.next)

/-- Allocate a fresh pair-list object. -/
def allocPairs (h : Heap) (v : List (String × String)) : Heap × Nat :=
  ({ h with plists := updF h.plists h.next v, next := h.next + 1 }, h.next)

/-- Allocate a fresh dict object. -/
def allocDict (h : Heap) (v : PyDict) : Heap × Nat :=
  ({ h with dicts := updF h.dicts h.next v, next := h.next + 1 }, h.next)

/-- Deep-copy one optional list field. -/
def copyListField (h : Heap) (o : Option Nat) : Heap × Option Nat :=
  match o with
  | none => (h, none)
  | some l => let r := allocList h (h.lists l); (r.1, some r.2)

/-- Deep-copy one optional pair-list field. -/
def copyPairsField (h : Heap) (o : Option Nat) : Heap × Option Nat :=
  match o with
  | none => (h, none)
  | some l => let r := allocPairs h (h.plists l); (r.1, some r.2)

/-- `copy.deepcopy(state)`: fresh cells for every present list field, and
a fresh dict referencing them. -/
def deepcopyDict (h : Heap) (d : Nat) : Heap × Nat :=
  let dv := h.dicts d
  let r1 := copyListField h dv.ontable
  let r2 := copyListField r1.1 dv.clear
  let r3 := copyListField r2.1 dv.holding
  let r4 := copyPairsField r3.1 dv.onRel
  allocDict r4.1
    { ontable := r1.2, clear := r2.2, holding := r3.2, onRel := r4.2,
      handempty := dv.handempty }

/-- `if key in state and block in state[key]: state[key].remove(block)`
for a string-list field location. -/
def eraseFieldH (h : Heap) (o : Option Nat) (b : String) : Heap :=
  match o with
  | some l => if b ∈ h.lists l then writeList h l ((h.lists l).erase b) else h
  | none => h

/-- Heap-level `_apply_pickup(state_at_d, b)`. -/
def pickupH (h : Heap) (d : Nat) (b : String) : Heap :=
  let dv := h.dicts d
  let h1 := eraseFieldH h dv.ontable b
  let h2 := eraseFieldH h1 dv.clear b
  let r := allocList h2 [b]
  writeDict r.1 d
    { dv with holding := some r.2, handempty := dv.handempty.map fun _ => false }

/-- Heap-level `_apply_putdown(state_at_d, b)`: remove from holding, then
append to ontable and clear (allocating a fresh empty list and binding the
key first when the key is absent), then set `handempty = True`. -/
def putdownH (h : Heap) (d : Nat) (b : String) : Heap :=
  let dv := h.dicts d
  let h1 := eraseFieldH h dv.holding b
  let r2 :=
    match dv.ontable with
    | some l => (writeList h1 l (h1.lists l ++ [b]), dv)
    | none =>
      let a := allocList h1 []
      let dv' := { dv with ontable := some a.2 }
      (writeList (writeDict a.1 d dv') a.2 (a.1.lists a.2 ++ [b]), dv')
  let dv1 := r2.2
  let h3 :=
    match dv1.clear with
    | some l => writeDict (writeList r2.1 l (r2.1.lists l ++ [b])) d
        { dv1 with handempty := some true }
    | none =>
      let a := allocList r2.1 []
      let dv' := { dv1 with clear := some a.2 }
      writeDict (writeList a.1 a.2 (a.1.lists a.2 ++ [b])) d
        { dv' with handempty := some true }
  h3

/-- Heap-level `_apply_stack(state_at_d, a, b)`. -/
def stackH (h : Heap) (d : Nat) (a b : String) : Heap :=
  let dv := h.dicts d
  let h1 := eraseFieldH h dv.holding a
  let h2 := eraseFieldH h1 dv.clear b
  let r3 :=
    match dv.onRel with
    | some l => (writePairs h2 l (h2.plists l ++ [(a, b)]), dv)
    | none =>
      let al := allocPairs h2 []
      let dv' := { dv with onRel := some al.2 }
      (writePairs (writeDict al.1 d dv') al.2 (al.1.plists al.2 ++ [(a, b)]), dv')
  let dv1 := r3.2
  match dv1.clear with
  | some l => writeDict (writeList r3.1 l (r3.1.lists l ++ [a])) d
      { dv1 with handempty := some true }
  | none =>
    let al := allocList r3.1 []
    let dv' := { dv1 with clear := some al.2 }
    writeDict (writeList al.1 al.2 (al.1.lists al.2 ++ [a])) d
      { dv' with handempty := some true }

/-- Heap-level `_apply_unstack(state_at_d, a, b)`: `state["on"]` is
rebound to a freshly built filtered list when the key is present. -/
def unstackH (h : Heap) (d : Nat) (a b : String) : Heap :=
  let dv := h.dicts d
  let r1 :=
    match dv.onRel with
    | some l =>
      let al := allocPairs h ((h.plists l).filter fun p =>
        !(decide (p.1 = a) && decide (p.2 = b)))
      (writeDict al.1 d { dv with onRel := some al.2 }, { dv with onRel := some al.2 })
    | none => (h, dv)
  let dv1 := r1.2
  let h2 := eraseFieldH r1.1 dv1.clear a
  let r3 :=
    match dv1.clear with
    | some l => (writeList h2 l (h2.lists l ++ [b]), dv1)
    | none =>
      let al := allocList h2 []
      let dv' := { dv1 with clear := some al.2 }
      (writeList (writeDict al.1 d dv') al.2 (al.1.lists al.2 ++ [b]), dv')
  let dv2 := r3.2
  let r4 := allocList r3.1 [a]
  writeDict r4.1 d { dv2 with holding := some r4.2, handempty := some false }

/-- One token of the heap-level simulator loop, mutating the dict at `d`;
an `IndexError` on a missing operand aborts the loop. -/
def stepH (h : Heap) (d : Nat) (tok : String) : Heap × Option String :=
  match normalizeParts tok with
  | v :: b :: rest =>
    if pyLower v = "pickup" then (pickupH h d b, none)
    else if pyLower v = "putdown" then (putdownH h d b, none)
    else if pyLower v = "stack" then
      match rest with
      | b2 :: _ => (stackH h d b b2, none)
      | [] => (h, some "IndexError")
    else if pyLower v = "unstack" then
      match rest with
      | b2 :: _ => (unstackH h d b b2, none)
      | [] => (h, some "IndexError")
    else (h, none)
  | _ => (h, none)

/-- The token loop over a dict location, stopping at the first exception. -/
def runH (d : Nat) : Heap → List String → Heap × Option String
  | h, [] => (h, none)
  | h, t :: ts =>
    let r := stepH h d t
    match r.2 with
    | none => runH d r.1 ts
    | some e => (r.1, some e)

/-- Heap-level `_update_state_after_plan(state_at_d, plan)`: deep-copy the
argument, then run the token loop on the copy.  (The function's Python
return value is `None`; only the heap effect matters here.) -/
def update_heap (h : Heap) (d : Nat) (toks : List String) : Heap × Option String :=
  let c := deepcopyDict h d
  runH c.2 c.1 toks

/-- Read the state value a dict location denotes (what an external
collaborator is shown); `none` models the Python value `None`. -/
def readDictH (h : Heap) (o : Option Nat) : Option WorldState :=
  o.map fun d =>
    let dv := h.dicts d
    { ontable := dv.ontable.map h.lists, clear := dv.clear.map h.lists,
      holding := dv.holding.map h.lists, handempty := dv.handempty,
      onRel := dv.onRel.map h.plists }

/-- `_update_state_after_plan(None, plan)`: `deepcopy(None)` is `None` and
the loop then evaluates `key in None` for the first non-skipped token,
raising `TypeError` (or `IndexError` first for a short stack/unstack
token); no heap object is touched. -/
def updateNoneExn (toks : List String) : Option String :=
  toks.findSome? fun t =>
    match normalizeParts t with
    | v :: _ :: rest =>
      if pyLower v = "pickup" then some "TypeError"
      else if pyLower v = "putdown" then some "TypeError"
      else if pyLower v = "stack" then
        match rest with
        | _ :: _ => some "TypeError"
        | [] => some "IndexError"
      else if pyLower v = "unstack" then
        match rest with
        | _ :: _ => some "TypeError"
        | [] => some "IndexError"
      else none
    | _ => none

/-- The subgoal loop of heap-level `plan`: `cur` is the variable
`current_state` (which `_update_state_after_plan`'s missing return sets to
`None` after the first successful subgoal); an exception inside the state
update propagates out of `plan`. -/
def planLoopH (solve : Subgoal → Option WorldState → Bool × List String)
    (adapt : Subgoal → String → Subgoal) :
    Heap → Option Nat → List Subgoal → List String →
      Heap × Except String (Bool × List String)
  | h, _, [], acc => (h, .ok (true, acc))
  | h, cur, sg :: rest, acc =>
    let r := solve_subgoal_with_retry solve adapt sg (readDictH h cur) 3
    if r.1 then
      match cur with
      | some dl =>
        let u := update_heap h dl r.2
        match u.2 with
        | some e => (u.1, .error e)
        | none => planLoopH solve adapt u.1 none rest (acc ++ r.2)
      | none =>
        match updateNoneExn r.2 with
        | some e => (h, .error e)
        | none => planLoopH solve adapt h none rest (acc ++ r.2)
    else (h, .ok (false, []))

/-- Heap-level `plan`: `current_state = initial_state.copy()` allocates a
fresh dict sharing the caller's list objects, then the subgoal loop runs
(`subgoals` stands for the decomposition capability's output). -/
def planH (solve : Subgoal → Option WorldState → Bool × List String)
    (adapt : Subgoal → String → Subgoal) (h : Heap) (d : Nat)
    (subgoals : List Subgoal) : Heap × Except String (Bool × List String) :=
  let c := allocDict h (h.dicts d)
  planLoopH solve adapt c.1 (some c.2) subgoals []

/-- `h'` agrees with `h` on every object allocated below `n`. -/
def AgreesBelow (h h' : Heap) (n : Nat) : Prop :=
  ∀ l, l < n → h'.lists l = h.lists l ∧ h'.plists l = h.plists l ∧
    h'.dicts l = h.dicts l

/-- Every location a dict value references is below `n` (well-formed
caller object: it only points at already-allocated cells). -/
def DictLocsBelow (dv : PyDict) (n : Nat) : Prop :=
  (∀ l, dv.ontable = some l → l < n) ∧ (∀ l, dv.clear = some l → l < n) ∧
    (∀ l, dv.holding = some l → l < n) ∧ (∀ l, dv.onRel = some l → l < n)

/-- Every location a dict value references is at or above `n` (the dict
only points at cells freshly allocated since `n`). -/
def FieldsGE (dv : PyDict) (n : Nat) : Prop :=
  (∀ l, dv.ontable = some l → n ≤ l) ∧ (∀ l, dv.clear = some l → n ≤ l) ∧
    (∀ l, dv.holding = some l → n ≤ l) ∧ (∀ l, dv.onRel = some l → n ≤ l)

instance (dv : PyDict) (n : Nat) : Decidable (DictLocsBelow dv n) := by
  unfold DictLocsBelow
  have inst : ∀ o : Option Nat, Decidable (∀ l, o = some l → l < n) := fun o =>
    match o with
    | none => .isTrue (by simp)
    | some k => decidable_of_iff (k < n) (by simp)
  exact instDecidableAnd

/-! ## Concrete instances used by witnesses and counterexamples -/

/-- A block identifier: nonempty, no whitespace, and none of the
characters the tokenizer treats as separators. -/
def IsIdent (x : String) : Prop :=
  x.data ≠ [] ∧ ∀ c ∈ x.data, ¬c.isWhitespace ∧ c ≠ '(' ∧ c ≠ ')' ∧ c ≠ ','

instance (x : String) : Decidable (IsIdent x) := by
  unfold IsIdent; infer_instance

/-- The initial state of the repository's simple-stacking example: three
blocks on the table, hand empty. -/
def exampleState : WorldState :=
  { ontable := some ["a", "b", "c"], clear := some ["a", "b", "c"],
    holding := some [], handempty := some true, onRel := some [] }

/-- A consistent, well-formed one-block state. -/
def oneBlockState : WorldState :=
  { ontable := some ["a"], clear := some ["a"],
    holding := some [], handempty := some true, onRel := some [] }

/-- A state in which block `a` is both on the table and held (violating
check 1) and also on the table but not clear (violating check 2). -/
def twoViolationState : WorldState :=
  { ontable := some ["a", "c"], clear := some ["c"],
    holding := some ["a"], handempty := some false, onRel := some [] }

/-- The state reached from `oneBlockState` by `pickup a; stack a b`: block
`b` is referenced as a bottom but placed nowhere. -/
def orphanBottomState : WorldState :=
  { ontable := some [], clear := some ["a"], holding := some [],
    handempty := some true, onRel := some [("a", "b")] }

/-- A state whose `on` relation mentions `b` only as a bottom. -/
def bottomOnlyState : WorldState :=
  { ontable := some [], clear := some [],
    holding := some [], handempty := some true, onRel := some [("a", "b")] }

/-- A solve capability that fails on every call. -/
def cSolveFail : Subgoal → Nat → Bool × List String := fun _ _ => (false, [])

/-- An adaptation capability that returns the subgoal unchanged. -/
def cAdapt : Subgoal → String → Subgoal := fun g _ => g

/-- A concrete subgoal with id 1. -/
def cSub1 : Subgoal :=
  { subgoal_id := 1, description := "", formal_goal := "",
    prerequisites := [], resources_needed := [] }

/-- A concrete subgoal with id 2. -/
def cSub2 : Subgoal :=
  { subgoal_id := 2, description := "", formal_goal := "",
    prerequisites := [], resources_needed := [] }

/-- A solve capability that solves subgoal 1 and fails on all others. -/
def cSolveFirst : Subgoal → Nat → Bool × List String :=
  fun g _ => if g.subgoal_id = 1 then (true, ["pickup a"]) else (false, [])

/-- A trivial state-advance function over an opaque state type. -/
def cUpd : Nat → List String → Nat := fun st _ => st + 1

/-- A concrete caller heap: a dict at location 4 whose fields live at
locations 0-3. -/
def exHeap : Heap :=
  { lists := fun l => if l = 0 then ["a", "b"] else if l = 1 then ["a", "b"] else [],
    plists := fun _ => [],
    dicts := fun dl =>
      if dl = 4 then
        { ontable := some 0, clear := some 1, holding := some 2,
          onRel := some 3, handempty := some true }
      else { ontable := none, clear := none, holding := none,
             onRel := none, handempty := none },
    next := 5 }

/-!
# Theorems
-/

/-- C1: the blocks-world `_update_state_after_plan` falls off the end of
its body without a `return` statement, so the caller receives `None`
instead of the freshly derived state the contract promises — even though
that state is built correctly inside the function (second conjunct). -/
theorem update_state_after_plan_returns_none :
    update_state_after_plan_ret exampleState ["pickup a"] = .ok none ∧
    update_state_after_plan exampleState ["pickup a"] =
      .ok { ontable := some ["b", "c"], clear := some ["b", "c"],
            holding := some ["a"], handempty := some false, onRel := some [] } := by
  constructor <;> rfl

/-- C3: with a solve capability that fails on every call and three
attempts, `_solve_subgoal_with_retry` issues exactly two adaptation calls
(only between attempts, never after the last) and returns `(false, [])`. -/
theorem retry_exhaustion_two_adapts {σ : Type}
    (solve : Subgoal → σ → Bool × List String) (adapt : Subgoal → String → Subgoal)
    (sg : Subgoal) (st : σ) (hfail : ∀ g, (solve g st).1 = false) :
    solve_subgoal_with_retry solve adapt sg st 3 = (false, []) ∧
    adapt_calls solve adapt sg st 3 = 2 := by
  unfold solve_subgoal_with_retry adapt_calls
  have h3 : (3 : Nat) = 2 + 1 := rfl
  have h2 : (2 : Nat) = 1 + 1 := rfl
  have h1 : (1 : Nat) = 0 + 1 := rfl
  rw [h3]
  rw [solve_retry_go]
  simp only [hfail, if_false, Bool.false_eq_true]
  rw [h2, solve_retry_go]
  simp only [hfail, if_false, Bool.false_eq_true]
  rw [h1, solve_retry_go]
  simp [hfail]

/-- C3 witness: the always-failing solver at three attempts. -/
theorem retry_exhaustion_two_adapts_witness :
    solve_subgoal_with_retry cSolveFail cAdapt cSub1 0 3 = (false, []) ∧
    adapt_calls cSolveFail cAdapt cSub1 0 3 = 2 :=
  retry_exhaustion_two_adapts cSolveFail cAdapt cSub1 0 (fun _ => rfl)

/-- C9: when the structured response cannot be parsed, the decomposition
capability's handler calls the nonexistent `_fallback_parse` attribute,
so an `AttributeError` is raised to the Coordinator instead of a
best-effort fallback parse returning normally. -/
theorem decompose_malformed_raises (parse : String → Option (List Subgoal))
    (content : String) (hbad : parse content = none) :
    decompose_goal_handle (parse content) =
      PyResult.exn
        "AttributeError: LLMHighlevelPlanner object has no attribute fallback parse" := by
  rw [hbad]; rfl

/-- C9 witness: a response body that is not valid JSON. -/
theorem decompose_malformed_raises_witness :
    decompose_goal_handle ((fun _ => (none : Option (List Subgoal))) "not json") =
      PyResult.exn
        "AttributeError: LLMHighlevelPlanner object has no attribute fallback parse" :=
  decompose_malformed_raises (fun _ => none) "not json" rfl

/-- C10: the validator's exactly-one-place loop ranges over every block
referenced anywhere, including one appearing only as the bottom of an
`on` pair; such a block has place count 0, so `validate` returns false —
while the spec's check 1 (second conjunct) never even examines it. -/
theorem validator_flags_bottom_only_blocks (s : WorldState) (x : String)
    (hbot : x ∈ botsL s) (hot : x ∉ otL s) (hhold : x ∉ holdL s)
    (htop : x ∉ topsL s) :
    (validate s).1 = false ∧ x ∉ (otL s ++ holdL s ++ topsL s).dedup := by
  have hx : x ∈ allBlocks s := by
    unfold allBlocks
    rw [List.mem_dedup]
    simp [hbot]
  have hc : placedCount s x = 0 := by
    unfold placedCount
    simp [hot, hhold, htop]
  refine ⟨?_, ?_⟩
  · rcases hfind : (allBlocks s).find? (fun b => decide (placedCount s b ≠ 1)) with _ | b
    · rw [List.find?_eq_none] at hfind
      exact absurd (of_decide_eq_false (Bool.of_not_eq_true (hfind x hx)))
        (by simp [hc])
    · unfold validate
      rw [hfind]
  · rw [List.mem_dedup]
    simp [hot, hhold, htop]

/-- C10 witness: a state whose `on` relation is `[(a, b)]` with `b`
appearing nowhere else. -/
theorem validator_flags_bottom_only_blocks_witness :
    (validate bottomOnlyState).1 = false ∧
    "b" ∉ (otL bottomOnlyState ++ holdL bottomOnlyState ++ topsL bottomOnlyState).dedup :=
  validator_flags_bottom_only_blocks bottomOnlyState "b" (by decide) (by decide)
    (by decide) (by decide)

/-- C6 (amended): the validator returns a single bool, logging at most one
diagnostic: it stops at the first violated object/check, and `ok` is false
exactly when a diagnostic was produced. -/
theorem validate_single_diagnostic (s : WorldState) :
    ((validate s).1 = false ↔ (validate s).2 ≠ []) ∧ (validate s).2.length ≤ 1 := by
  unfold validate
  rcases (allBlocks s).find? (fun b => decide (placedCount s b ≠ 1)) with _ | b
  · rcases (otL s).find? (fun b => decide (b ∉ botsL s) && decide (b ∉ clearL s)) with _ | b
    · rcases (topsL s).find? (fun b => decide (b ∉ botsL s) && decide (b ∉ clearL s)) with _ | b
      · simp
      · simp
    · simp
  · simp

/-- C6 counterexample: in `twoViolationState`, block `a` violates both the
exactly-one-place check and the table-blocks-clear check, but the code
logs a single diagnostic and returns plain `False` at the first one,
whereas the spec-described validator collects one diagnostic per violated
object/check (two of them). -/
theorem validate_stops_at_first_violation :
    (validate twoViolationState).1 = false ∧
    (validate twoViolationState).2.length = 1 ∧
    (validateSpec twoViolationState).2.length = 2 := by
  refine ⟨?_, ?_, ?_⟩ <;> rfl

/-- Helper: a `planLoop` run that reports failure reports an empty action
list (by construction of the early return). -/
theorem planLoop_false_nil {σ : Type} (solve : Subgoal → σ → Bool × List String)
    (adapt : Subgoal → String → Subgoal) (upd : σ → List String → σ) :
    ∀ (sgs : List Subgoal) (st : σ) (acc : List String),
      (planLoop solve adapt upd sgs st acc).1 = false →
      (planLoop solve adapt upd sgs st acc).2 = [] := by
  intro sgs
  induction sgs with
  | nil => intro st acc h; simp [planLoop] at h
  | cons sg rest ih =>
    intro st acc h
    rw [planLoop] at h ⊢
    by_cases hs : (solve_subgoal_with_retry solve adapt sg st 3).1
    · rw [if_pos hs] at h ⊢
      exact ih _ _ h
    · rw [if_neg hs]

/-- C2: composition is all-or-nothing.  First: whenever `plan` reports
failure, the returned action list is empty, so actions from earlier
successful subgoals are discarded.  Second: at a subgoal whose retry
budget is exhausted the loop returns `(false, [])` regardless of the
remaining subgoals, so none of them is attempted. -/
theorem plan_failure_all_or_nothing {σ : Type}
    (solve : Subgoal → σ → Bool × List String) (adapt : Subgoal → String → Subgoal)
    (upd : σ → List String → σ) :
    (∀ decomp resolveC goal domainInfo st,
      (plan solve adapt upd decomp resolveC goal domainInfo st).1 = false →
      (plan solve adapt upd decomp resolveC goal domainInfo st).2 = []) ∧
    (∀ sg rest rest' st acc,
      (solve_subgoal_with_retry solve adapt sg st 3).1 = false →
      planLoop solve adapt upd (sg :: rest) st acc = (false, []) ∧
      planLoop solve adapt upd (sg :: rest') st acc =
        planLoop solve adapt upd (sg :: rest) st acc) := by
  constructor
  · intro decomp resolveC goal domainInfo st h
    exact planLoop_false_nil solve adapt upd _ _ _ h
  · intro sg rest rest' st acc hfail
    rw [Bool.eq_false_iff] at hfail
    constructor
    · rw [planLoop, if_neg hfail]
    · rw [planLoop, if_neg hfail, planLoop, if_neg hfail]

/-- C2 witness: subgoal 2 exhausts its retries after subgoal 1 succeeded
and contributed `"pickup a"`; the loop result is `(false, [])` and
ignores any remaining subgoals. -/
theorem plan_failure_all_or_nothing_witness :
    planLoop cSolveFirst cAdapt cUpd (cSub2 :: []) 1 ["pickup a"] = (false, []) ∧
    planLoop cSolveFirst cAdapt cUpd (cSub2 :: [cSub1]) 1 ["pickup a"] =
      planLoop cSolveFirst cAdapt cUpd (cSub2 :: []) 1 ["pickup a"] :=
  (plan_failure_all_or_nothing cSolveFirst cAdapt cUpd).2 cSub2 [] [cSub1] 1
    ["pickup a"] (by decide)

/-- Helper: a token the lenient parser skips leaves the state untouched. -/
theorem applyTok_skip (s : WorldState) (t : String) (h : tokenSkipped t = true) :
    applyTok s t = .ok s := by
  unfold tokenSkipped at h
  unfold applyTok
  rcases hp : normalizeParts t with _ | ⟨v, _ | ⟨b, rest⟩⟩
  · rfl
  · rfl
  · rw [hp] at h
    simp only [Bool.not_eq_eq_eq_not, Bool.not_true, Bool.or_eq_false_iff,
      decide_eq_false_iff_not] at h
    simp [h.1.1.1, h.1.1.2, h.1.2, h.2]

/-- C5 (amended): any token that normalizes to fewer than two parts, or
whose verb is unrecognized, is silently skipped: deleting it from the
token list leaves the final state unchanged, wherever it occurs. -/
theorem skipped_token_no_effect (m : String) (hm : tokenSkipped m = true) :
    ∀ (s : WorldState) (pre post : List String),
      update_state_after_plan s (pre ++ m :: post) =
        update_state_after_plan s (pre ++ post) := by
  intro s pre
  induction pre generalizing s with
  | nil =>
    intro post
    simp only [List.nil_append]
    rw [update_state_after_plan, applyTok_skip s m hm]
  | cons t pre' ih =>
    intro post
    simp only [List.cons_append]
    rw [update_state_after_plan, update_state_after_plan]
    rcases applyTok s t with e | s'
    · rfl
    · exact ih s' post

/-- C5 witness: the single-word token `"noop"` between two valid actions
has no effect on the final state. -/
theorem skipped_token_no_effect_witness :
    update_state_after_plan exampleState (["pickup a"] ++ "noop" :: ["putdown a"]) =
      update_state_after_plan exampleState (["pickup a"] ++ ["putdown a"]) :=
  skipped_token_no_effect "noop" (by rfl) exampleState ["pickup a"] ["putdown a"]

/-- C5 counterexample: the malformed token `"stack a"` (a recognized verb
with its second operand missing) between two valid actions is not skipped:
the simulator raises `IndexError`, while the same list without it
succeeds. -/
theorem simulator_raises_on_malformed_stack :
    update_state_after_plan exampleState ["pickup a", "stack a", "putdown a"] =
      .error "IndexError" ∧
    update_state_after_plan exampleState ["pickup a", "putdown a"] =
      .ok { ontable := some ["b", "c", "a"], clear := some ["b", "c", "a"],
            holding := some [], handempty := some true, onRel := some [] } := by
  constructor <;> rfl

/-- Helper: character lists free of whitespace and separator characters. -/
def NiceWord (w : List Char) : Prop :=
  w ≠ [] ∧ ∀ c ∈ w, ¬c.isWhitespace ∧ c ≠ '(' ∧ c ≠ ')' ∧ c ≠ ','

/-- Helper: `strip` is the identity when the ends are not whitespace. -/
theorem stripWs_sandwich (c d : Char) (mid : List Char) (hc : ¬c.isWhitespace)
    (hd : ¬d.isWhitespace) : stripWs (c :: (mid ++ [d])) = c :: (mid ++ [d]) := by
  unfold stripWs
  rw [List.dropWhile_cons, if_neg (by simp [hc])]
  have hrev : (c :: (mid ++ [d])).reverse = d :: (mid.reverse ++ [c]) := by simp
  rw [hrev, List.dropWhile_cons, if_neg (by simp [hd])]
  simp

/-- Helper: replacing a character absent from the list is the identity. -/
theorem replaceChar_id (c1 c2 : Char) (l : List Char) (h : ∀ c ∈ l, c ≠ c1) :
    replaceChar c1 c2 l = l := by
  unfold replaceChar
  induction l with
  | nil => rfl
  | cons a t ih =>
    rw [List.map_cons, if_neg (h a (by simp)), ih fun c hc => h c (by simp [hc])]

/-- Helper: deleting a character absent from the list is the identity. -/
theorem removeChar_id (c1 : Char) (l : List Char) (h : ∀ c ∈ l, c ≠ c1) :
    removeChar c1 l = l := by
  unfold removeChar
  rw [List.filter_eq_self]
  intro a ha
  simpa using h a ha

/-- Helper: splitting an all-non-whitespace run yields one word. -/
theorem splitWsAux_no_ws (l : List Char) (h : ∀ c ∈ l, ¬c.isWhitespace) :
    ∀ acc : List Char, splitWsAux l acc =
      if acc.reverse ++ l = [] then [] else [acc.reverse ++ l] := by
  induction l with
  | nil =>
    intro acc
    rcases acc with _ | ⟨a, t⟩
    · rfl
    · simp [splitWsAux]
  | cons c rest ih =>
    intro acc
    rw [splitWsAux, if_neg (h c (by simp))]
    rw [ih (fun c hc => h c (by simp [hc])) (c :: acc)]
    simp

/-- Helper: splitting `word ++ ' ' ++ word` yields the two words. -/
theorem splitWsAux_word_space (w1 w2 : List Char) (h1 : ∀ c ∈ w1, ¬c.isWhitespace)
    (h2 : ∀ c ∈ w2, ¬c.isWhitespace) (hw2 : w2 ≠ []) :
    ∀ acc : List Char, splitWsAux (w1 ++ ' ' :: w2) acc =
      (if acc.reverse ++ w1 = [] then [] else [acc.reverse ++ w1]) ++ [w2] := by
  induction w1 with
  | nil =>
    intro acc
    have hsp : (' ' : Char).isWhitespace := by decide
    rw [List.nil_append, splitWsAux, if_pos hsp]
    rw [splitWsAux_no_ws w2 h2 []]
    rcases hacc : acc with _ | ⟨a, t⟩
    · simp [hw2]
    · rw [if_neg (by simp)]
      simp [hw2]
  | cons c w1' ih =>
    intro acc
    rw [List.cons_append, splitWsAux, if_neg (h1 c (by simp))]
    rw [ih (fun c hc => h1 c (by simp [hc])) (c :: acc)]
    simp

/-- Helper: the full normalization of `word ++ " " ++ word` for words free
of whitespace and separators. -/
theorem normChars_word_word (w1 w2 : List Char) (h1 : NiceWord w1)
    (h2 : NiceWord w2) : normChars (w1 ++ ' ' :: w2) = [w1, w2] := by
  obtain ⟨hn1, hc1⟩ := h1
  obtain ⟨hn2, hc2⟩ := h2
  obtain ⟨c, w1t, rfl⟩ : ∃ c t, w1 = c :: t := by
    rcases w1 with _ | ⟨c, t⟩
    · exact absurd rfl hn1
    · exact ⟨c, t, rfl⟩
  obtain ⟨w2i, d, rfl⟩ : ∃ t d, w2 = t ++ [d] := by
    rcases List.eq_nil_or_concat w2 with h | ⟨t, d, hw⟩
    · exact absurd h hn2
    · rw [List.concat_eq_append] at hw
      exact ⟨t, d, hw⟩
  unfold normChars
  have hshape : c :: w1t ++ ' ' :: (w2i ++ [d]) =
      c :: ((w1t ++ ' ' :: w2i) ++ [d]) := by simp
  rw [hshape, stripWs_sandwich c d _ (hc1 c (by simp)).1 (hc2 d (by simp)).1]
  rw [← hshape]
  have hall : ∀ c' ∈ c :: w1t ++ ' ' :: (w2i ++ [d]),
      c' ≠ '(' ∧ c' ≠ ')' ∧ c' ≠ ',' := by
    intro c' hc'
    simp only [List.cons_append, List.mem_cons, List.mem_append] at hc'
    rcases hc' with rfl | hm | rfl | hm | rfl | hm
    · have h := hc1 c' (by simp)
      exact ⟨h.2.1, h.2.2.1, h.2.2.2⟩
    · have h := hc1 c' (by simp [hm])
      exact ⟨h.2.1, h.2.2.1, h.2.2.2⟩
    · refine ⟨by decide, by decide, by decide⟩
    · have h := hc2 c' (by simp [hm])
      exact ⟨h.2.1, h.2.2.1, h.2.2.2⟩
    · have h := hc2 c' (by simp)
      exact ⟨h.2.1, h.2.2.1, h.2.2.2⟩
    · simp at hm
  rw [replaceChar_id _ _ _ fun c' h => (hall c' h).1]
  rw [removeChar_id _ _ fun c' h => (hall c' h).2.1]
  rw [replaceChar_id _ _ _ fun c' h => (hall c' h).2.2]
  rw [splitWsAux_word_space _ _ (fun c' h => (hc1 c' h).1) (fun c' h => (hc2 c' h).1)
    (by simp) []]
  simp

/-- Helper: `String.mk` of the data is the string itself. -/
theorem string_mk_data (s : String) : String.mk s.data = s := rfl

/-- Helper: normalizing `verb ++ " " ++ ident` yields the two parts. -/
theorem normalizeParts_verb_ident (v x : String) (hv : IsIdent v) (hx : IsIdent x) :
    normalizeParts (v ++ " " ++ x) = [v, x] := by
  unfold normalizeParts
  have hdata : (v ++ " " ++ x).data = v.data ++ ' ' :: x.data := by
    simp [String.data_append]
  rw [hdata, normChars_word_word v.data x.data ⟨hv.1, hv.2⟩ ⟨hx.1, hx.2⟩]
  simp [string_mk_data]

/-- Helper: dispatch of a well-formed pickup token. -/
theorem applyTok_pickup (s : WorldState) (x : String) (hx : IsIdent x) :
    applyTok s ("pickup " ++ x) = .ok (apply_pickup s x) := by
  unfold applyTok
  have h : ("pickup " ++ x) = "pickup" ++ " " ++ x := by
    apply congrArg String.mk
    simp [String.data_append]
  rw [h, normalizeParts_verb_ident "pickup" x (by decide) hx]
  rfl

/-- Helper: dispatch of a well-formed putdown token. -/
theorem applyTok_putdown (s : WorldState) (x : String) (hx : IsIdent x) :
    applyTok s ("putdown " ++ x) = .ok (apply_putdown s x) := by
  unfold applyTok
  have h : ("putdown " ++ x) = "putdown" ++ " " ++ x := by
    apply congrArg String.mk
    simp [String.data_append]
  rw [h, normalizeParts_verb_ident "putdown" x (by decide) hx]
  rfl

/-- Helper: a present membership pins down the underlying dict entry. -/
theorem ontable_eq_of_mem (s : WorldState) (x : String) (h : x ∈ otL s) :
    s.ontable = some (otL s) := by
  rcases hs : s.ontable with _ | l
  · rw [otL, hs] at h; simp at h
  · rw [otL, hs]; rfl

/-- Helper: same for the clear list. -/
theorem clear_eq_of_mem (s : WorldState) (x : String) (h : x ∈ clearL s) :
    s.clear = some (clearL s) := by
  rcases hs : s.clear with _ | l
  · rw [clearL, hs] at h; simp at h
  · rw [clearL, hs]; rfl

/-- C7: for a clear, on-table block `x` with the hand empty, simulating
`pickup x` then `putdown x` restores the ontable, clear, holding and
handempty components to their original values with respect to `x`. -/
theorem pickup_putdown_round_trip (s : WorldState) (x : String) (hid : IsIdent x)
    (hot : x ∈ otL s) (hcl : x ∈ clearL s) (hhe : s.handempty = some true)
    (hhold : holdL s = []) :
    ∃ s', update_state_after_plan s ["pickup " ++ x, "putdown " ++ x] = .ok s' ∧
      (x ∈ otL s' ↔ x ∈ otL s) ∧ (x ∈ clearL s' ↔ x ∈ clearL s) ∧
      holdL s' = holdL s ∧ s'.handempty = s.handempty := by
  refine ⟨apply_putdown (apply_pickup s x) x, ?_, ?_, ?_, ?_, ?_⟩
  · simp only [update_state_after_plan, applyTok_pickup s x hid,
      applyTok_putdown _ x hid]
  · simp only [apply_putdown, otL]
    simp only [Option.getD_some, List.mem_append, List.mem_singleton, or_true,
      true_iff]
    exact hot
  · simp only [apply_putdown, clearL]
    simp only [Option.getD_some, List.mem_append, List.mem_singleton, or_true,
      true_iff]
    exact hcl
  · rw [apply_putdown]
    show (eraseIfMem (apply_pickup s x).holding x).getD [] = holdL s
    rw [apply_pickup]
    simp [eraseIfMem, hhold]
  · rw [apply_putdown, hhe]

/-- Helper: `eraseIfMem` under `getD` is a plain erase. -/
theorem getD_eraseIfMem (o : Option (List String)) (b : String) :
    (eraseIfMem o b).getD [] = (o.getD []).erase b := by
  rcases o with _ | l
  · simp [eraseIfMem]
  · show (if b ∈ l then l.erase b else l) = l.erase b
    by_cases hb : b ∈ l
    · rw [if_pos hb]
    · rw [if_neg hb, List.erase_of_not_mem hb]

/-- Helper: ontable after a pickup. -/
theorem otL_pickup (s : WorldState) (b : String) :
    otL (apply_pickup s b) = (otL s).erase b := getD_eraseIfMem _ _

/-- Helper: clear after a pickup. -/
theorem clearL_pickup (s : WorldState) (b : String) :
    clearL (apply_pickup s b) = (clearL s).erase b := getD_eraseIfMem _ _

/-- Helper: holding after a pickup. -/
theorem holdL_pickup (s : WorldState) (b : String) :
    holdL (apply_pickup s b) = [b] := rfl

/-- Helper: tops after a pickup. -/
theorem topsL_pickup (s : WorldState) (b : String) :
    topsL (apply_pickup s b) = topsL s := rfl

/-- Helper: bottoms after a pickup. -/
theorem botsL_pickup (s : WorldState) (b : String) :
    botsL (apply_pickup s b) = botsL s := rfl

/-- Helper: holding after a putdown. -/
theorem holdL_putdown (s : WorldState) (b : String) :
    holdL (apply_putdown s b) = (holdL s).erase b := getD_eraseIfMem _ _

/-- Helper: ontable after a putdown. -/
theorem otL_putdown (s : WorldState) (b : String) :
    otL (apply_putdown s b) = otL s ++ [b] := rfl

/-- Helper: clear after a putdown. -/
theorem clearL_putdown (s : WorldState) (b : String) :
    clearL (apply_putdown s b) = clearL s ++ [b] := rfl

/-- Helper: tops after a putdown. -/
theorem topsL_putdown (s : WorldState) (b : String) :
    topsL (apply_putdown s b) = topsL s := rfl

/-- Helper: bottoms after a putdown. -/
theorem botsL_putdown (s : WorldState) (b : String) :
    botsL (apply_putdown s b) = botsL s := rfl

/-- Helper: holding after a stack. -/
theorem holdL_stack (s : WorldState) (a b : String) :
    holdL (apply_stack s a b) = (holdL s).erase a := getD_eraseIfMem _ _

/-- Helper: clear after a stack. -/
theorem clearL_stack (s : WorldState) (a b : String) :
    clearL (apply_stack s a b) = (clearL s).erase b ++ [a] := by
  show (eraseIfMem s.clear b).getD [] ++ [a] = (clearL s).erase b ++ [a]
  rw [getD_eraseIfMem]
  rfl

/-- Helper: ontable after a stack. -/
theorem otL_stack (s : WorldState) (a b : String) :
    otL (apply_stack s a b) = otL s := rfl

/-- Helper: tops after a stack. -/
theorem topsL_stack (s : WorldState) (a b : String) :
    topsL (apply_stack s a b) = topsL s ++ [a] := by
  show ((onL s) ++ [(a, b)]).map Prod.fst = topsL s ++ [a]
  rw [List.map_append]
  rfl

/-- Helper: bottoms after a stack. -/
theorem botsL_stack (s : WorldState) (a b : String) :
    botsL (apply_stack s a b) = botsL s ++ [b] := by
  show ((onL s) ++ [(a, b)]).map Prod.snd = botsL s ++ [b]
  rw [List.map_append]
  rfl

/-- Helper: the `on` relation after an unstack. -/
theorem onL_unstack (s : WorldState) (a b : String) :
    onL (apply_unstack s a b) =
      (onL s).filter fun p => !(decide (p.1 = a) && decide (p.2 = b)) := by
  rcases h : s.onRel with _ | l
  · show (s.onRel.map _).getD [] = ((s.onRel.getD []).filter _)
    rw [h]
    rfl
  · show (s.onRel.map _).getD [] = ((s.onRel.getD []).filter _)
    rw [h]
    rfl

/-- Helper: clear after an unstack. -/
theorem clearL_unstack (s : WorldState) (a b : String) :
    clearL (apply_unstack s a b) = (clearL s).erase a ++ [b] := by
  show (eraseIfMem s.clear a).getD [] ++ [b] = (clearL s).erase a ++ [b]
  rw [getD_eraseIfMem]
  rfl

/-- Helper: holding after an unstack. -/
theorem holdL_unstack (s : WorldState) (a b : String) :
    holdL (apply_unstack s a b) = [a] := rfl

/-- Helper: ontable after an unstack. -/
theorem otL_unstack (s : WorldState) (a b : String) :
    otL (apply_unstack s a b) = otL s := rfl

/-- Helper: when no block tops two stacks, the bottom under a given top is
unique. -/
theorem bottom_unique {l : List (String × String)} (h : (l.map Prod.fst).Nodup)
    {a b c : String} (hab : (a, b) ∈ l) (hac : (a, c) ∈ l) : b = c := by
  induction l with
  | nil => simp at hab
  | cons p rest ih =>
    rw [List.map_cons, List.nodup_cons] at h
    rcases List.mem_cons.mp hab with h1 | h1 <;> rcases List.mem_cons.mp hac with h2 | h2
    · have heq : (a, b) = (a, c) := h1.trans h2.symm
      exact (Prod.ext_iff.mp heq).2
    · exfalso
      apply h.1
      have hmem : a ∈ rest.map Prod.fst := by
        simpa using List.mem_map_of_mem Prod.fst h2
      rw [← h1]
      exact hmem
    · exfalso
      apply h.1
      have hmem : a ∈ rest.map Prod.fst := by
        simpa using List.mem_map_of_mem Prod.fst h1
      rw [← h2]
      exact hmem
    · exact ih h.2 h1 h2

/-- Helper: counts agree when the three memberships agree. -/
theorem placedCount_eq_of_iff {s s' : WorldState} {x : String}
    (h1 : x ∈ otL s' ↔ x ∈ otL s) (h2 : x ∈ holdL s' ↔ x ∈ holdL s)
    (h3 : x ∈ topsL s' ↔ x ∈ topsL s) : placedCount s' x = placedCount s x := by
  unfold placedCount
  rw [if_congr h1 rfl rfl, if_congr h2 rfl rfl, if_congr h3 rfl rfl]

/-- Helper: reading off the unique place from a count of one. -/
theorem placedCount_eq_one_cases {s : WorldState} {x : String}
    (h : placedCount s x = 1) :
    (x ∈ otL s ∧ x ∉ holdL s ∧ x ∉ topsL s) ∨
    (x ∉ otL s ∧ x ∈ holdL s ∧ x ∉ topsL s) ∨
    (x ∉ otL s ∧ x ∉ holdL s ∧ x ∈ topsL s) := by
  unfold placedCount at h
  by_cases h1 : x ∈ otL s <;> by_cases h2 : x ∈ holdL s <;>
    by_cases h3 : x ∈ topsL s <;> simp [h1, h2, h3] at h ⊢

/-- Helper: computing a count of one from an explicit placement. -/
theorem placedCount_eq_one_of (s : WorldState) (x : String)
    (h : (x ∈ otL s ∧ x ∉ holdL s ∧ x ∉ topsL s) ∨
      (x ∉ otL s ∧ x ∈ holdL s ∧ x ∉ topsL s) ∨
      (x ∉ otL s ∧ x ∉ holdL s ∧ x ∈ topsL s)) : placedCount s x = 1 := by
  unfold placedCount
  rcases h with ⟨h1, h2, h3⟩ | ⟨h1, h2, h3⟩ | ⟨h1, h2, h3⟩ <;> simp [h1, h2, h3]

/-- Helper: a held block is the only held block in a well-formed state. -/
theorem holding_singleton (s : WorldState) (hlen : (holdL s).length ≤ 1)
    {b : String} (hb : b ∈ holdL s) : holdL s = [b] := by
  rcases h : holdL s with _ | ⟨y, _ | ⟨z, t⟩⟩
  · rw [h] at hb; simp at hb
  · rw [h] at hb
    simp at hb
    rw [hb]
  · rw [h] at hlen; simp at hlen

/-- Helper: a legal pickup preserves well-formedness and the invariant. -/
theorem pickup_preserves (s : WorldState) (b : String) (hWF : WFState s)
    (hInv : PlacedOnce s) (hot : b ∈ otL s) (hh : holdL s = []) :
    WFState (apply_pickup s b) ∧ PlacedOnce (apply_pickup s b) := by
  obtain ⟨hnd_ot, hlen, hnd_tp, hclr⟩ := hWF
  have hbcases := placedCount_eq_one_cases (hInv b (by simp [List.mem_append, hot]))
  have hbtop : b ∉ topsL s := by
    rcases hbcases with ⟨_, _, h⟩ | ⟨h, _, _⟩ | ⟨h, _, _⟩
    · exact h
    · exact absurd hot h
    · exact absurd hot h
  constructor
  · refine ⟨?_, ?_, ?_, ?_⟩
    · rw [otL_pickup]; exact hnd_ot.erase b
    · rw [holdL_pickup]; simp
    · rw [topsL_pickup]; exact hnd_tp
    · intro x hx
      rw [clearL_pickup] at hx
      have hxc := List.mem_of_mem_erase hx
      by_cases hxb : x = b
      · subst hxb
        right; left
        rw [holdL_pickup]; simp
      · rcases hclr x hxc with h1 | h2 | h3
        · left
          rw [otL_pickup]
          exact (List.mem_erase_of_ne hxb).mpr h1
        · rw [hh] at h2; simp at h2
        · right; right
          rw [topsL_pickup]
          exact h3
  · intro x hx
    by_cases hxb : x = b
    · subst hxb
      apply placedCount_eq_one_of
      right; left
      refine ⟨?_, ?_, ?_⟩
      · rw [otL_pickup]; exact hnd_ot.not_mem_erase
      · rw [holdL_pickup]; simp
      · rw [topsL_pickup]; exact hbtop
    · have e1 : x ∈ otL (apply_pickup s b) ↔ x ∈ otL s := by
        rw [otL_pickup]; exact List.mem_erase_of_ne hxb
      have e2 : x ∈ holdL (apply_pickup s b) ↔ x ∈ holdL s := by
        rw [holdL_pickup, hh]; simp [hxb]
      have e3 : x ∈ topsL (apply_pickup s b) ↔ x ∈ topsL s := by
        rw [topsL_pickup]
      have hxs : x ∈ otL s ++ holdL s ++ topsL s ++ botsL s := by
        simp only [List.mem_append] at hx ⊢
        rcases hx with ((h1 | h2) | h3) | h4
        · exact Or.inl (Or.inl (Or.inl (e1.mp h1)))
        · exact Or.inl (Or.inl (Or.inr (e2.mp h2)))
        · rw [topsL_pickup] at h3
          exact Or.inl (Or.inr h3)
        · rw [botsL_pickup] at h4
          exact Or.inr h4
      rw [placedCount_eq_of_iff e1 e2 e3]
      exact hInv x hxs

/-- Helper: a legal putdown preserves well-formedness and the invariant. -/
theorem putdown_preserves (s : WorldState) (b : String) (hWF : WFState s)
    (hInv : PlacedOnce s) (hb : b ∈ holdL s) :
    WFState (apply_putdown s b) ∧ PlacedOnce (apply_putdown s b) := by
  obtain ⟨hnd_ot, hlen, hnd_tp, hclr⟩ := hWF
  have hbl : holdL s = [b] := holding_singleton s hlen hb
  have hbcases := placedCount_eq_one_cases (hInv b (by simp [List.mem_append, hb]))
  have hbot : b ∉ otL s := by
    rcases hbcases with ⟨_, h, _⟩ | ⟨h, _, _⟩ | ⟨_, h, _⟩
    · exact absurd hb h
    · exact h
    · exact absurd hb h
  have hbtop : b ∉ topsL s := by
    rcases hbcases with ⟨_, h, _⟩ | ⟨_, _, h⟩ | ⟨_, h, _⟩
    · exact absurd hb h
    · exact h
    · exact absurd hb h
  have hhold' : holdL (apply_putdown s b) = [] := by
    rw [holdL_putdown, hbl]
    simp
  constructor
  · refine ⟨?_, ?_, ?_, ?_⟩
    · rw [otL_putdown, List.nodup_append]
      refine ⟨hnd_ot, by simp, ?_⟩
      intro y hy hyb
      simp at hyb
      subst hyb
      exact hbot hy
    · rw [hhold']; simp
    · rw [topsL_putdown]; exact hnd_tp
    · intro x hx
      rw [clearL_putdown, List.mem_append] at hx
      rcases hx with hx | hx
      · rcases hclr x hx with h1 | h2 | h3
        · left
          rw [otL_putdown]
          exact List.mem_append_left _ h1
        · rw [hbl] at h2
          simp at h2
          subst h2
          left
          rw [otL_putdown]
          simp
        · right; right
          rw [topsL_putdown]
          exact h3
      · simp at hx
        subst hx
        left
        rw [otL_putdown]
        simp
  · intro x hx
    by_cases hxb : x = b
    · subst hxb
      apply placedCount_eq_one_of
      left
      refine ⟨?_, ?_, ?_⟩
      · rw [otL_putdown]; simp
      · rw [hhold']; simp
      · rw [topsL_putdown]; exact hbtop
    · have e1 : x ∈ otL (apply_putdown s b) ↔ x ∈ otL s := by
        rw [otL_putdown]
        simp [hxb]
      have e2 : x ∈ holdL (apply_putdown s b) ↔ x ∈ holdL s := by
        rw [hhold', hbl]
        simp [hxb]
      have e3 : x ∈ topsL (apply_putdown s b) ↔ x ∈ topsL s := by
        rw [topsL_putdown]
      have hxs : x ∈ otL s ++ holdL s ++ topsL s ++ botsL s := by
        simp only [List.mem_append] at hx ⊢
        rcases hx with ((h1 | h2) | h3) | h4
        · exact Or.inl (Or.inl (Or.inl (e1.mp h1)))
        · exact Or.inl (Or.inl (Or.inr (e2.mp h2)))
        · rw [topsL_putdown] at h3
          exact Or.inl (Or.inr h3)
        · rw [botsL_putdown] at h4
          exact Or.inr h4
      rw [placedCount_eq_of_iff e1 e2 e3]
      exact hInv x hxs

/-- Helper: a legal stack preserves well-formedness and the invariant. -/
theorem stack_preserves (s : WorldState) (a b2 : String) (hWF : WFState s)
    (hInv : PlacedOnce s) (ha : a ∈ holdL s) (hb2 : b2 ∈ clearL s) :
    WFState (apply_stack s a b2) ∧ PlacedOnce (apply_stack s a b2) := by
  obtain ⟨hnd_ot, hlen, hnd_tp, hclr⟩ := hWF
  have hal : holdL s = [a] := holding_singleton s hlen ha
  have hacases := placedCount_eq_one_cases (hInv a (by simp [List.mem_append, ha]))
  have haot : a ∉ otL s := by
    rcases hacases with ⟨_, h, _⟩ | ⟨h, _, _⟩ | ⟨_, h, _⟩
    · exact absurd ha h
    · exact h
    · exact absurd ha h
  have hatp : a ∉ topsL s := by
    rcases hacases with ⟨_, h, _⟩ | ⟨_, _, h⟩ | ⟨_, h, _⟩
    · exact absurd ha h
    · exact h
    · exact absurd ha h
  have hhold' : holdL (apply_stack s a b2) = [] := by
    rw [holdL_stack, hal]
    simp
  constructor
  · refine ⟨?_, ?_, ?_, ?_⟩
    · rw [otL_stack]; exact hnd_ot
    · rw [hhold']; simp
    · rw [topsL_stack, List.nodup_append]
      refine ⟨hnd_tp, by simp, ?_⟩
      intro y hy hya
      simp at hya
      subst hya
      exact hatp hy
    · intro x hx
      rw [clearL_stack, List.mem_append] at hx
      rcases hx with hx | hx
      · have hxc := List.mem_of_mem_erase hx
        rcases hclr x hxc with h1 | h2 | h3
        · left; rw [otL_stack]; exact h1
        · rw [hal] at h2
          simp at h2
          subst h2
          right; right
          rw [topsL_stack]
          simp
        · right; right
          rw [topsL_stack]
          exact List.mem_append_left _ h3
      · simp at hx
        subst hx
        right; right
        rw [topsL_stack]
        simp
  · intro x hx
    by_cases hxa : x = a
    · subst hxa
      apply placedCount_eq_one_of
      right; right
      refine ⟨by rw [otL_stack]; exact haot, by rw [hhold']; simp, ?_⟩
      rw [topsL_stack]
      simp
    · have e1 : x ∈ otL (apply_stack s a b2) ↔ x ∈ otL s := by rw [otL_stack]
      have e2 : x ∈ holdL (apply_stack s a b2) ↔ x ∈ holdL s := by
        rw [hhold', hal]
        simp [hxa]
      have e3 : x ∈ topsL (apply_stack s a b2) ↔ x ∈ topsL s := by
        rw [topsL_stack]
        simp [hxa]
      have hxs : x ∈ otL s ++ holdL s ++ topsL s ++ botsL s := by
        simp only [List.mem_append] at hx ⊢
        rcases hx with ((h1 | h2) | h3) | h4
        · exact Or.inl (Or.inl (Or.inl (e1.mp h1)))
        · exact Or.inl (Or.inl (Or.inr (e2.mp h2)))
        · exact Or.inl (Or.inr (e3.mp h3))
        · rw [botsL_stack] at h4
          rcases List.mem_append.mp h4 with h4 | h4
          · exact Or.inr h4
          · simp at h4
            subst h4
            rcases hclr x hb2 with h1 | h2 | h3
            · exact Or.inl (Or.inl (Or.inl h1))
            · rw [hal] at h2
              simp at h2
              exact absurd h2 hxa
            · exact Or.inl (Or.inr h3)
      rw [placedCount_eq_of_iff e1 e2 e3]
      exact hInv x hxs

/-- Helper: a legal unstack preserves well-formedness and the invariant. -/
theorem unstack_preserves (s : WorldState) (a b2 : String) (hWF : WFState s)
    (hInv : PlacedOnce s) (hab : (a, b2) ∈ onL s) (hacl : a ∈ clearL s)
    (hh : holdL s = []) :
    WFState (apply_unstack s a b2) ∧ PlacedOnce (apply_unstack s a b2) := by
  obtain ⟨hnd_ot, hlen, hnd_tp, hclr⟩ := hWF
  have hatop : a ∈ topsL s := List.mem_map_of_mem Prod.fst hab
  have hacases := placedCount_eq_one_cases (hInv a (by simp [List.mem_append, hatop]))
  have haot : a ∉ otL s := by
    rcases hacases with ⟨_, _, h⟩ | ⟨h, _, _⟩ | ⟨h, _, _⟩
    · exact absurd hatop h
    · exact h
    · exact h
  have htops : ∀ x, x ∈ topsL (apply_unstack s a b2) ↔ x ∈ topsL s ∧ x ≠ a := by
    intro x
    constructor
    · intro hx
      obtain ⟨p, hp, hpx⟩ := List.mem_map.mp hx
      rw [onL_unstack] at hp
      have hpon : p ∈ onL s := List.mem_of_mem_filter hp
      refine ⟨by rw [← hpx]; exact List.mem_map_of_mem _ hpon, ?_⟩
      intro hxa
      have hpx' : p.1 = a := hpx.trans hxa
      have hpa : (a, p.2) = p := by
        rw [← hpx']
      have hab2 : (a, p.2) ∈ onL s := hpa ▸ hpon
      have hp2 : p.2 = b2 := bottom_unique hnd_tp hab2 hab
      have hpred := List.of_mem_filter hp
      simp [hpx', hp2] at hpred
    · intro hx
      obtain ⟨hxt, hxa⟩ := hx
      obtain ⟨p, hpon, hpx⟩ := List.mem_map.mp hxt
      show x ∈ (onL (apply_unstack s a b2)).map Prod.fst
      rw [onL_unstack, ← hpx]
      refine List.mem_map_of_mem _ (List.mem_filter.mpr ⟨hpon, ?_⟩)
      simp [hpx, hxa]
  have hbots' : ∀ x, x ∈ botsL (apply_unstack s a b2) → x ∈ botsL s := by
    intro x hx
    obtain ⟨p, hp, hpx⟩ := List.mem_map.mp hx
    rw [onL_unstack] at hp
    rw [← hpx]
    exact List.mem_map_of_mem _ (List.mem_of_mem_filter hp)
  constructor
  · refine ⟨?_, ?_, ?_, ?_⟩
    · rw [otL_unstack]; exact hnd_ot
    · rw [holdL_unstack]; simp
    · have he : topsL (apply_unstack s a b2) =
          ((onL s).filter fun p => !(decide (p.1 = a) && decide (p.2 = b2))).map
            Prod.fst := by
        show (onL (apply_unstack s a b2)).map Prod.fst = _
        rw [onL_unstack]
      rw [he]
      exact List.Nodup.sublist ((List.filter_sublist _).map _) hnd_tp
    · intro x hx
      rw [clearL_unstack, List.mem_append] at hx
      rcases hx with hx | hx
      · have hxc := List.mem_of_mem_erase hx
        rcases hclr x hxc with h1 | h2 | h3
        · left; rw [otL_unstack]; exact h1
        · rw [hh] at h2; simp at h2
        · by_cases hxa : x = a
          · subst hxa
            right; left
            rw [holdL_unstack]
            simp
          · right; right
            exact (htops x).mpr ⟨h3, hxa⟩
      · simp at hx
        subst hx
        have hb2refs : x ∈ otL s ++ holdL s ++ topsL s ++ botsL s := by
          simp only [List.mem_append]
          exact Or.inr (List.mem_map_of_mem Prod.snd hab)
        rcases placedCount_eq_one_cases (hInv x hb2refs) with
          ⟨h1, _, _⟩ | ⟨_, h2, _⟩ | ⟨_, _, h3⟩
        · left; rw [otL_unstack]; exact h1
        · rw [hh] at h2; simp at h2
        · by_cases hba : x = a
          · subst hba
            right; left
            rw [holdL_unstack]
            simp
          · right; right
            exact (htops x).mpr ⟨h3, hba⟩
  · intro x hx
    by_cases hxa : x = a
    · subst hxa
      apply placedCount_eq_one_of
      right; left
      refine ⟨by rw [otL_unstack]; exact haot, by rw [holdL_unstack]; simp, ?_⟩
      intro hc
      exact ((htops x).mp hc).2 rfl
    · have e1 : x ∈ otL (apply_unstack s a b2) ↔ x ∈ otL s := by rw [otL_unstack]
      have e2 : x ∈ holdL (apply_unstack s a b2) ↔ x ∈ holdL s := by
        rw [holdL_unstack, hh]
        simp [hxa]
      have e3 : x ∈ topsL (apply_unstack s a b2) ↔ x ∈ topsL s := by
        rw [htops x]
        simp [hxa]
      have hxs : x ∈ otL s ++ holdL s ++ topsL s ++ botsL s := by
        simp only [List.mem_append] at hx ⊢
        rcases hx with ((h1 | h2) | h3) | h4
        · exact Or.inl (Or.inl (Or.inl (e1.mp h1)))
        · exact Or.inl (Or.inl (Or.inr (e2.mp h2)))
        · exact Or.inl (Or.inr (e3.mp h3))
        · exact Or.inr (hbots' x h4)
      rw [placedCount_eq_of_iff e1 e2 e3]
      exact hInv x hxs

/-- Helper: one legal simulator step succeeds and preserves both
well-formedness and the exactly-one-place invariant. -/
theorem applyTok_preserves (s : WorldState) (t : String) (hWF : WFState s)
    (hInv : PlacedOnce s) (hleg : tokLegal s t = true) :
    ∃ s', applyTok s t = .ok s' ∧ WFState s' ∧ PlacedOnce s' := by
  unfold tokLegal at hleg
  unfold applyTok
  revert hleg
  rcases hp : normalizeParts t with _ | ⟨v, _ | ⟨b, rest⟩⟩
  · intro _
    exact ⟨s, rfl, hWF, hInv⟩
  · intro _
    exact ⟨s, rfl, hWF, hInv⟩
  · intro hleg
    simp only [] at hleg ⊢
    by_cases h1 : pyLower v = "pickup"
    · rw [if_pos h1] at hleg ⊢
      simp only [Bool.and_eq_true, decide_eq_true_eq] at hleg
      obtain ⟨⟨hb1, hb2⟩, hb3⟩ := hleg
      obtain ⟨hw, hi⟩ := pickup_preserves s b hWF hInv hb1 hb3
      exact ⟨_, rfl, hw, hi⟩
    · rw [if_neg h1] at hleg ⊢
      by_cases h2 : pyLower v = "putdown"
      · rw [if_pos h2] at hleg ⊢
        simp only [decide_eq_true_eq] at hleg
        obtain ⟨hw, hi⟩ := putdown_preserves s b hWF hInv hleg
        exact ⟨_, rfl, hw, hi⟩
      · rw [if_neg h2] at hleg ⊢
        by_cases h3 : pyLower v = "stack"
        · rw [if_pos h3] at hleg ⊢
          rcases rest with _ | ⟨b2, rest'⟩
          · simp at hleg
          · simp only [Bool.and_eq_true, decide_eq_true_eq] at hleg
            obtain ⟨hb1, hb2⟩ := hleg
            obtain ⟨hw, hi⟩ := stack_preserves s b b2 hWF hInv hb1 hb2
            exact ⟨_, rfl, hw, hi⟩
        · rw [if_neg h3] at hleg ⊢
          by_cases h4 : pyLower v = "unstack"
          · rw [if_pos h4] at hleg ⊢
            rcases rest with _ | ⟨b2, rest'⟩
            · simp at hleg
            · simp only [Bool.and_eq_true, decide_eq_true_eq] at hleg
              obtain ⟨⟨hb1, hb2⟩, hb3⟩ := hleg
              obtain ⟨hw, hi⟩ := unstack_preserves s b b2 hWF hInv hb1 hb2 hb3
              exact ⟨_, rfl, hw, hi⟩
          · rw [if_neg h4]
            exact ⟨s, rfl, hWF, hInv⟩

/-- C4 (amended): from a well-formed state satisfying the exactly-one-place
invariant, any token sequence in which every action is applied with its
preconditions satisfied simulates without error to a state that again
satisfies the invariant. -/
theorem legal_runs_preserve_invariant (toks : List String) :
    ∀ s : WorldState, WFState s → PlacedOnce s → legalSeq s toks = true →
      ∃ s', update_state_after_plan s toks = .ok s' ∧ PlacedOnce s' := by
  induction toks with
  | nil =>
    intro s _ hInv _
    exact ⟨s, rfl, hInv⟩
  | cons t ts ih =>
    intro s hWF hInv hleg
    rw [legalSeq, Bool.and_eq_true] at hleg
    obtain ⟨hlt, hrest⟩ := hleg
    obtain ⟨s1, happ, hWF1, hInv1⟩ := applyTok_preserves s t hWF hInv hlt
    rw [happ] at hrest
    rw [update_state_after_plan, happ]
    exact ih s1 hWF1 hInv1 hrest

/-- C4 witness: a legal pickup/putdown run on the example state. -/
theorem legal_runs_preserve_invariant_witness :
    ∃ s', update_state_after_plan exampleState ["pickup a", "putdown a"] = .ok s' ∧
      PlacedOnce s' :=
  legal_runs_preserve_invariant ["pickup a", "putdown a"] exampleState (by decide)
    (by decide) (by decide)

/-- C4 counterexample: from a consistent, well-formed initial state the
unchecked token sequence `pickup a; stack a b` (stacking onto the absent
block `b`) reaches a state in which `b` is referenced as a bottom but
placed nowhere, so the exactly-one-place invariant fails for arbitrary
token sequences. -/
theorem invariant_broken_by_unchecked_action :
    PlacedOnce oneBlockState ∧ WFState oneBlockState ∧
    update_state_after_plan oneBlockState ["pickup a", "stack a b"] =
      .ok orphanBottomState ∧
    ¬ PlacedOnce orphanBottomState :=
  ⟨by decide, by decide, rfl, by decide⟩

/-- C7 witness: the round trip on block `a` of the example state. -/
theorem pickup_putdown_round_trip_witness :
    ∃ s', update_state_after_plan exampleState ["pickup " ++ "a", "putdown " ++ "a"] =
        .ok s' ∧
      ("a" ∈ otL s' ↔ "a" ∈ otL exampleState) ∧
      ("a" ∈ clearL s' ↔ "a" ∈ clearL exampleState) ∧
      holdL s' = holdL exampleState ∧ s'.handempty = exampleState.handempty :=
  pickup_putdown_round_trip exampleState "a" (by decide) (by decide) (by decide)
    rfl rfl

/-- Helper: store update away from the written location. -/
theorem updF_ne {α : Type} (f : Nat → α) (k : Nat) (v : α) (j : Nat) (h : j ≠ k) :
    updF f k v j = f j := by
  unfold updF
  rw [if_neg h]

/-- Helper: store update at the written location. -/
theorem updF_self {α : Type} (f : Nat → α) (k : Nat) (v : α) : updF f k v k = v := by
  unfold updF
  rw [if_pos rfl]

/-- Helper: reading back the dict just written. -/
theorem writeDict_dicts_self (h : Heap) (d : Nat) (v : PyDict) :
    (writeDict h d v).dicts d = v := updF_self _ _ _

/-- Helper: an in-place list write at or above `n` preserves agreement
below `n`. -/
theorem writeList_agrees (h₀ h : Heap) (n : Nat) (hA : AgreesBelow h₀ h n)
    (l : Nat) (hl : n ≤ l) (v : List String) :
    AgreesBelow h₀ (writeList h l v) n := by
  intro j hj
  obtain ⟨e1, e2, e3⟩ := hA j hj
  refine ⟨?_, e2, e3⟩
  show updF h.lists l v j = h₀.lists j
  rw [updF_ne _ _ _ _ (by omega)]
  exact e1

/-- Helper: an in-place pair-list write at or above `n` preserves
agreement below `n`. -/
theorem writePairs_agrees (h₀ h : Heap) (n : Nat) (hA : AgreesBelow h₀ h n)
    (l : Nat) (hl : n ≤ l) (v : List (String × String)) :
    AgreesBelow h₀ (writePairs h l v) n := by
  intro j hj
  obtain ⟨e1, e2, e3⟩ := hA j hj
  refine ⟨e1, ?_, e3⟩
  show updF h.plists l v j = h₀.plists j
  rw [updF_ne _ _ _ _ (by omega)]
  exact e2

/-- Helper: a dict write at or above `n` preserves agreement below `n`. -/
theorem writeDict_agrees (h₀ h : Heap) (n : Nat) (hA : AgreesBelow h₀ h n)
    (d : Nat) (hd : n ≤ d) (v : PyDict) :
    AgreesBelow h₀ (writeDict h d v) n := by
  intro j hj
  obtain ⟨e1, e2, e3⟩ := hA j hj
  refine ⟨e1, e2, ?_⟩
  show updF h.dicts d v j = h₀.dicts j
  rw [updF_ne _ _ _ _ (by omega)]
  exact e3

/-- Helper: allocating a list cell preserves agreement below `n`. -/
theorem allocList_agrees (h₀ h : Heap) (n : Nat) (hA : AgreesBelow h₀ h n)
    (hn : n ≤ h.next) (v : List String) :
    AgreesBelow h₀ (allocList h v).1 n := by
  intro j hj
  obtain ⟨e1, e2, e3⟩ := hA j hj
  refine ⟨?_, e2, e3⟩
  show updF h.lists h.next v j = h₀.lists j
  rw [updF_ne _ _ _ _ (by omega)]
  exact e1

/-- Helper: allocating a pair-list cell preserves agreement below `n`. -/
theorem allocPairs_agrees (h₀ h : Heap) (n : Nat) (hA : AgreesBelow h₀ h n)
    (hn : n ≤ h.next) (v : List (String × String)) :
    AgreesBelow h₀ (allocPairs h v).1 n := by
  intro j hj
  obtain ⟨e1, e2, e3⟩ := hA j hj
  refine ⟨e1, ?_, e3⟩
  show updF h.plists h.next v j = h₀.plists j
  rw [updF_ne _ _ _ _ (by omega)]
  exact e2

/-- Helper: allocating a dict cell preserves agreement below `n`. -/
theorem allocDict_agrees (h₀ h : Heap) (n : Nat) (hA : AgreesBelow h₀ h n)
    (hn : n ≤ h.next) (v : PyDict) :
    AgreesBelow h₀ (allocDict h v).1 n := by
  intro j hj
  obtain ⟨e1, e2, e3⟩ := hA j hj
  refine ⟨e1, e2, ?_⟩
  show updF h.dicts h.next v j = h₀.dicts j
  rw [updF_ne _ _ _ _ (by omega)]
  exact e3

/-- Helper: the guarded field erase preserves agreement below `n`, and
touches neither the allocator nor any dict. -/
theorem eraseFieldH_agrees (h₀ h : Heap) (n : Nat) (o : Option Nat) (b : String)
    (hA : AgreesBelow h₀ h n) (ho : ∀ l, o = some l → n ≤ l) :
    AgreesBelow h₀ (eraseFieldH h o b) n ∧ (eraseFieldH h o b).next = h.next ∧
      (eraseFieldH h o b).dicts = h.dicts := by
  unfold eraseFieldH
  rcases o with _ | l
  · exact ⟨hA, rfl, rfl⟩
  · simp only []
    by_cases hb : b ∈ h.lists l
    · rw [if_pos hb]
      exact ⟨writeList_agrees h₀ h n hA l (ho l rfl) _, rfl, rfl⟩
    · rw [if_neg hb]
      exact ⟨hA, rfl, rfl⟩

/-- Helper: heap-level pickup writes only at or above `n`. -/
theorem pickupH_safe (h₀ : Heap) (n : Nat) (h : Heap) (d : Nat) (b : String)
    (hA : AgreesBelow h₀ h n) (hnext : n ≤ h.next) (hd : n ≤ d)
    (hf : FieldsGE (h.dicts d) n) :
    AgreesBelow h₀ (pickupH h d b) n ∧ n ≤ (pickupH h d b).next ∧
      FieldsGE ((pickupH h d b).dicts d) n := by
  obtain ⟨hfo, hfc, hfh, hfr⟩ := hf
  obtain ⟨A1, N1, D1⟩ := eraseFieldH_agrees h₀ h n (h.dicts d).ontable b hA hfo
  obtain ⟨A2, N2, D2⟩ :=
    eraseFieldH_agrees h₀ (eraseFieldH h (h.dicts d).ontable b) n
      (h.dicts d).clear b A1 hfc
  have hnext2 :
      n ≤ (eraseFieldH (eraseFieldH h (h.dicts d).ontable b) (h.dicts d).clear b).next := by
    rw [N2, N1]
    exact hnext
  unfold pickupH
  simp only []
  refine ⟨?_, ?_, ?_⟩
  · exact writeDict_agrees h₀ _ n (allocList_agrees h₀ _ n A2 hnext2 [b]) d hd _
  · show n ≤
      (eraseFieldH (eraseFieldH h (h.dicts d).ontable b) (h.dicts d).clear b).next + 1
    omega
  · rw [writeDict_dicts_self]
    refine ⟨hfo, hfc, ?_, hfr⟩
    intro l hl
    simp only [Option.some.injEq] at hl
    subst hl
    show n ≤ (eraseFieldH (eraseFieldH h (h.dicts d).ontable b) (h.dicts d).clear b).next
    exact hnext2

/-- Helper: heap-level putdown writes only at or above `n`. -/
theorem putdownH_safe (h₀ : Heap) (n : Nat) (h : Heap) (d : Nat) (b : String)
    (hA : AgreesBelow h₀ h n) (hnext : n ≤ h.next) (hd : n ≤ d)
    (hf : FieldsGE (h.dicts d) n) :
    AgreesBelow h₀ (putdownH h d b) n ∧ n ≤ (putdownH h d b).next ∧
      FieldsGE ((putdownH h d b).dicts d) n := by
  obtain ⟨hfo, hfc, hfh, hfr⟩ := hf
  obtain ⟨A1, N1, D1⟩ := eraseFieldH_agrees h₀ h n (h.dicts d).holding b hA hfh
  have hnext1 : n ≤ (eraseFieldH h (h.dicts d).holding b).next := by
    rw [N1]
    exact hnext
  unfold putdownH
  simp only []
  rcases hot : (h.dicts d).ontable with _ | lo <;> simp only []
  · -- ontable key absent: alloc a fresh cell, bind the key, append
    rcases hoc : (h.dicts d).clear with _ | lc <;> simp only []
    · -- clear key absent too
      refine ⟨?_, ?_, ?_⟩
      · exact writeDict_agrees h₀ _ n
          (writeList_agrees h₀ _ n
            (allocList_agrees h₀ _ n
              (writeList_agrees h₀ _ n
                (writeDict_agrees h₀ _ n (allocList_agrees h₀ _ n A1 hnext1 []) d hd _)
                _ hnext1 _)
              (by show n ≤ (eraseFieldH h (h.dicts d).holding b).next + 1; omega) [])
            _ (by show n ≤ (eraseFieldH h (h.dicts d).holding b).next + 1; omega) _)
          d hd _
      · show n ≤ (eraseFieldH h (h.dicts d).holding b).next + 1 + 1
        omega
      · rw [writeDict_dicts_self]
        refine ⟨?_, ?_, hfh, hfr⟩
        · intro l hl
          simp only [Option.some.injEq] at hl
          subst hl
          show n ≤ (eraseFieldH h (h.dicts d).holding b).next
          exact hnext1
        · intro l hl
          simp only [Option.some.injEq] at hl
          subst hl
          show n ≤ (eraseFieldH h (h.dicts d).holding b).next + 1
          omega
    · -- clear key present
      refine ⟨?_, ?_, ?_⟩
      · exact writeDict_agrees h₀ _ n
          (writeList_agrees h₀ _ n
            (writeList_agrees h₀ _ n
              (writeDict_agrees h₀ _ n (allocList_agrees h₀ _ n A1 hnext1 []) d hd _)
              _ hnext1 _)
            lc (hfc lc hoc) _)
          d hd _
      · show n ≤ (eraseFieldH h (h.dicts d).holding b).next + 1
        omega
      · rw [writeDict_dicts_self]
        refine ⟨?_, ?_, hfh, hfr⟩
        · intro l hl
          simp only [Option.some.injEq] at hl
          subst hl
          show n ≤ (eraseFieldH h (h.dicts d).holding b).next
          exact hnext1
        · intro l hl
          simp only [Option.some.injEq] at hl
          subst hl
          exact hfc lc hoc
  · -- ontable key present: in-place append
    rcases hoc : (h.dicts d).clear with _ | lc <;> simp only []
    · refine ⟨?_, ?_, ?_⟩
      · exact writeDict_agrees h₀ _ n
          (writeList_agrees h₀ _ n
            (allocList_agrees h₀ _ n
              (writeList_agrees h₀ _ n A1 lo (hfo lo hot) _)
              hnext1 [])
            _ hnext1 _)
          d hd _
      · show n ≤ (eraseFieldH h (h.dicts d).holding b).next + 1
        omega
      · rw [writeDict_dicts_self]
        refine ⟨hfo, ?_, hfh, hfr⟩
        intro l hl
        simp only [Option.some.injEq] at hl
        subst hl
        show n ≤ (eraseFieldH h (h.dicts d).holding b).next
        exact hnext1
    · refine ⟨?_, ?_, ?_⟩
      · exact writeDict_agrees h₀ _ n
          (writeList_agrees h₀ _ n
            (writeList_agrees h₀ _ n A1 lo (hfo lo hot) _)
            lc (hfc lc hoc) _)
          d hd _
      · show n ≤ (eraseFieldH h (h.dicts d).holding b).next
        exact hnext1
      · rw [writeDict_dicts_self]
        refine ⟨hfo, ?_, hfh, hfr⟩
        intro l hl
        simp only [Option.some.injEq] at hl
        subst hl
        exact hfc lc hoc

/-- Helper: heap-level stack writes only at or above `n`. -/
theorem stackH_safe (h₀ : Heap) (n : Nat) (h : Heap) (d : Nat) (a b : String)
    (hA : AgreesBelow h₀ h n) (hnext : n ≤ h.next) (hd : n ≤ d)
    (hf : FieldsGE (h.dicts d) n) :
    AgreesBelow h₀ (stackH h d a b) n ∧ n ≤ (stackH h d a b).next ∧
      FieldsGE ((stackH h d a b).dicts d) n := by
  obtain ⟨hfo, hfc, hfh, hfr⟩ := hf
  obtain ⟨A1, N1, D1⟩ := eraseFieldH_agrees h₀ h n (h.dicts d).holding a hA hfh
  have hnext1 : n ≤ (eraseFieldH h (h.dicts d).holding a).next := by
    rw [N1]
    exact hnext
  unfold stackH
  simp only []
  rcases hoc : (h.dicts d).clear with _ | lc
  · -- clear key absent: the erase is a no-op and putting a back allocates
    rcases hor : (h.dicts d).onRel with _ | lr <;> (try simp only []) <;>
      (try rw [hoc]) <;> (try simp only [])
    · -- on key absent as well
      refine ⟨?_, ?_, ?_⟩
      · exact writeDict_agrees h₀ _ n
          (writeList_agrees h₀ _ n
            (allocList_agrees h₀ _ n
              (writePairs_agrees h₀ _ n
                (writeDict_agrees h₀ _ n (allocPairs_agrees h₀ _ n A1 hnext1 []) d hd _)
                _ hnext1 _)
              (by show n ≤ (eraseFieldH h (h.dicts d).holding a).next + 1; omega) [])
            _ (by show n ≤ (eraseFieldH h (h.dicts d).holding a).next + 1; omega) _)
          d hd _
      · show n ≤ (eraseFieldH h (h.dicts d).holding a).next + 1 + 1
        omega
      · rw [writeDict_dicts_self]
        refine ⟨?_, ?_, ?_, ?_⟩
        · intro l hl
          exact hfo l hl
        · intro l hl
          simp only [Option.some.injEq] at hl
          subst hl
          show n ≤ (eraseFieldH h (h.dicts d).holding a).next + 1
          omega
        · intro l hl
          exact hfh l hl
        · intro l hl
          simp only [Option.some.injEq] at hl
          subst hl
          show n ≤ (eraseFieldH h (h.dicts d).holding a).next
          exact hnext1
    · -- on key present, clear key absent
      refine ⟨?_, ?_, ?_⟩
      · exact writeDict_agrees h₀ _ n
          (writeList_agrees h₀ _ n
            (allocList_agrees h₀ _ n
              (writePairs_agrees h₀ _ n A1 lr (hfr lr hor) _)
              hnext1 [])
            _ hnext1 _)
          d hd _
      · show n ≤ (eraseFieldH h (h.dicts d).holding a).next + 1
        omega
      · rw [writeDict_dicts_self]
        refine ⟨?_, ?_, ?_, ?_⟩
        · intro l hl
          exact hfo l hl
        · intro l hl
          simp only [Option.some.injEq] at hl
          subst hl
          show n ≤ (eraseFieldH h (h.dicts d).holding a).next
          exact hnext1
        · intro l hl
          exact hfh l hl
        · intro l hl
          exact hfr l hl
  · -- clear key present
    have hlc : n ≤ lc := hfc lc hoc
    obtain ⟨A2, N2, D2⟩ :=
      eraseFieldH_agrees h₀ (eraseFieldH h (h.dicts d).holding a) n (some lc) b A1
        (by intro l hl; simp only [Option.some.injEq] at hl; omega)
    have hnext2 :
        n ≤ (eraseFieldH (eraseFieldH h (h.dicts d).holding a) (some lc) b).next := by
      rw [N2]
      exact hnext1
    rcases hor : (h.dicts d).onRel with _ | lr <;> (try simp only []) <;>
      (try rw [hoc]) <;> (try simp only [])
    · -- on key absent
      refine ⟨?_, ?_, ?_⟩
      · exact writeDict_agrees h₀ _ n
          (writeList_agrees h₀ _ n
            (writePairs_agrees h₀ _ n
              (writeDict_agrees h₀ _ n (allocPairs_agrees h₀ _ n A2 hnext2 []) d hd _)
              _ hnext2 _)
            lc hlc _)
          d hd _
      · show n ≤
          (eraseFieldH (eraseFieldH h (h.dicts d).holding a) (some lc) b).next + 1
        omega
      · rw [writeDict_dicts_self]
        refine ⟨?_, ?_, ?_, ?_⟩
        · intro l hl
          exact hfo l hl
        · intro l hl
          first
            | exact hfc l hl
            | (simp only [Option.some.injEq] at hl; subst hl; exact hlc)
        · intro l hl
          exact hfh l hl
        · intro l hl
          simp only [Option.some.injEq] at hl
          subst hl
          show n ≤ (eraseFieldH (eraseFieldH h (h.dicts d).holding a) (some lc) b).next
          exact hnext2
    · -- on key present
      refine ⟨?_, ?_, ?_⟩
      · exact writeDict_agrees h₀ _ n
          (writeList_agrees h₀ _ n
            (writePairs_agrees h₀ _ n A2 lr (hfr lr hor) _)
            lc hlc _)
          d hd _
      · show n ≤ (eraseFieldH (eraseFieldH h (h.dicts d).holding a) (some lc) b).next
        exact hnext2
      · rw [writeDict_dicts_self]
        refine ⟨?_, ?_, ?_, ?_⟩
        · intro l hl
          exact hfo l hl
        · intro l hl
          first
            | exact hfc l hl
            | (simp only [Option.some.injEq] at hl; subst hl; exact hlc)
        · intro l hl
          exact hfh l hl
        · intro l hl
          exact hfr l hl

/-- Helper: the guarded field erase never allocates. -/
theorem eraseFieldH_next (h : Heap) (o : Option Nat) (b : String) :
    (eraseFieldH h o b).next = h.next := by
  unfold eraseFieldH
  rcases o with _ | l
  · rfl
  · simp only []
    by_cases hb : b ∈ h.lists l
    · rw [if_pos hb]
      rfl
    · rw [if_neg hb]

/-- Helper: the guarded field erase touches no dict. -/
theorem eraseFieldH_dicts (h : Heap) (o : Option Nat) (b : String) :
    (eraseFieldH h o b).dicts = h.dicts := by
  unfold eraseFieldH
  rcases o with _ | l
  · rfl
  · simp only []
    by_cases hb : b ∈ h.lists l
    · rw [if_pos hb]
      rfl
    · rw [if_neg hb]

/-- Helper: heap-level unstack writes only at or above `n`. -/
theorem unstackH_safe (h₀ : Heap) (n : Nat) (h : Heap) (d : Nat) (a b : String)
    (hA : AgreesBelow h₀ h n) (hnext : n ≤ h.next) (hd : n ≤ d)
    (hf : FieldsGE (h.dicts d) n) :
    AgreesBelow h₀ (unstackH h d a b) n ∧ n ≤ (unstackH h d a b).next ∧
      FieldsGE ((unstackH h d a b).dicts d) n := by
  obtain ⟨hfo, hfc, hfh, hfr⟩ := hf
  unfold unstackH
  simp only []
  rcases hor : (h.dicts d).onRel with _ | lr <;> (try simp only []) <;>
    rcases hoc : (h.dicts d).clear with _ | lc <;> (try simp only [])
  · -- on absent, clear absent
    refine ⟨?_, ?_, ?_⟩
    · refine writeDict_agrees h₀ _ n ?_ d hd _
      refine allocList_agrees h₀ _ n ?_ ?_ [a]
      · refine writeList_agrees h₀ _ n ?_ _ ?_ _
        · refine writeDict_agrees h₀ _ n ?_ d hd _
          refine allocList_agrees h₀ _ n ?_ ?_ []
          · exact (eraseFieldH_agrees h₀ h n none a hA (by intro l hl; cases hl)).1
          · rw [eraseFieldH_next]
            exact hnext
        · show n ≤ (allocList (eraseFieldH h none a) []).2
          simp only [allocList]
          rw [eraseFieldH_next]
          exact hnext
      · simp only [writeList, writeDict, allocList]
        rw [eraseFieldH_next]
        omega
    · simp only [writeDict, writeList, allocList]
      rw [eraseFieldH_next]
      omega
    · rw [writeDict_dicts_self]
      refine ⟨?_, ?_, ?_, ?_⟩
      · intro l hl
        exact hfo l hl
      · intro l hl
        simp only [Option.some.injEq] at hl
        subst hl
        simp only [allocList]
        rw [eraseFieldH_next]
        exact hnext
      · intro l hl
        simp only [Option.some.injEq] at hl
        subst hl
        simp only [writeList, writeDict, allocList]
        rw [eraseFieldH_next]
        omega
      · intro l hl
        exact hfr l hl
  · -- on absent, clear present
    have hlc : n ≤ lc := hfc lc hoc
    refine ⟨?_, ?_, ?_⟩
    · refine writeDict_agrees h₀ _ n ?_ d hd _
      refine allocList_agrees h₀ _ n ?_ ?_ [a]
      · refine writeList_agrees h₀ _ n ?_ lc hlc _
        exact (eraseFieldH_agrees h₀ h n (some lc) a hA
          (by intro l hl; simp only [Option.some.injEq] at hl; omega)).1
      · simp only [writeList]
        rw [eraseFieldH_next]
        exact hnext
    · simp only [writeDict, writeList, allocList]
      rw [eraseFieldH_next]
      omega
    · rw [writeDict_dicts_self]
      refine ⟨?_, ?_, ?_, ?_⟩
      · intro l hl
        exact hfo l hl
      · intro l hl
        exact hfc l hl
      · intro l hl
        simp only [Option.some.injEq] at hl
        subst hl
        simp only [allocList, writeList]
        rw [eraseFieldH_next]
        exact hnext
      · intro l hl
        exact hfr l hl
  · -- on present, clear absent
    refine ⟨?_, ?_, ?_⟩
    · refine writeDict_agrees h₀ _ n ?_ d hd _
      refine allocList_agrees h₀ _ n ?_ ?_ [a]
      · refine writeList_agrees h₀ _ n ?_ _ ?_ _
        · refine writeDict_agrees h₀ _ n ?_ d hd _
          refine allocList_agrees h₀ _ n ?_ ?_ []
          · refine (eraseFieldH_agrees h₀ _ n none a ?_ (by intro l hl; cases hl)).1
            refine writeDict_agrees h₀ _ n ?_ d hd _
            exact allocPairs_agrees h₀ h n hA hnext _
          · rw [eraseFieldH_next]
            simp only [writeDict, allocPairs]
            omega
        · show n ≤ (allocList (eraseFieldH _ none a) []).2
          simp only [allocList]
          rw [eraseFieldH_next]
          simp only [writeDict, allocPairs]
          omega
      · simp only [writeList, writeDict, allocList]
        rw [eraseFieldH_next]
        simp only [writeDict, allocPairs]
        omega
    · simp only [writeDict, writeList, allocList]
      rw [eraseFieldH_next]
      simp only [writeDict, allocPairs]
      omega
    · rw [writeDict_dicts_self]
      refine ⟨?_, ?_, ?_, ?_⟩
      · intro l hl
        exact hfo l hl
      · intro l hl
        simp only [Option.some.injEq] at hl
        subst hl
        simp only [allocList]
        rw [eraseFieldH_next]
        simp only [writeDict, allocPairs]
        omega
      · intro l hl
        simp only [Option.some.injEq] at hl
        subst hl
        simp only [writeList, writeDict, allocList]
        rw [eraseFieldH_next]
        simp only [writeDict, allocPairs]
        omega
      · intro l hl
        simp only [Option.some.injEq] at hl
        subst hl
        simp only [allocPairs]
        omega
  · -- on present, clear present
    have hlc : n ≤ lc := hfc lc hoc
    refine ⟨?_, ?_, ?_⟩
    · refine writeDict_agrees h₀ _ n ?_ d hd _
      refine allocList_agrees h₀ _ n ?_ ?_ [a]
      · refine writeList_agrees h₀ _ n ?_ lc hlc _
        refine (eraseFieldH_agrees h₀ _ n (some lc) a ?_
          (by intro l hl; simp only [Option.some.injEq] at hl; omega)).1
        refine writeDict_agrees h₀ _ n ?_ d hd _
        exact allocPairs_agrees h₀ h n hA hnext _
      · simp only [writeList]
        rw [eraseFieldH_next]
        simp only [writeDict, allocPairs]
        omega
    · simp only [writeDict, writeList, allocList]
      rw [eraseFieldH_next]
      simp only [writeDict, allocPairs]
      omega
    · rw [writeDict_dicts_self]
      refine ⟨?_, ?_, ?_, ?_⟩
      · intro l hl
        exact hfo l hl
      · intro l hl
        first
          | exact hfc l hl
          | (simp only [Option.some.injEq] at hl; subst hl; exact hlc)
      · intro l hl
        simp only [Option.some.injEq] at hl
        subst hl
        simp only [allocList, writeList]
        rw [eraseFieldH_next]
        simp only [writeDict, allocPairs]
        omega
      · intro l hl
        simp only [Option.some.injEq] at hl
        subst hl
        simp only [allocPairs]
        omega

/-- Helper: agreement below is reflexive. -/
theorem agrees_refl (h : Heap) (n : Nat) : AgreesBelow h h n :=
  fun _ _ => ⟨rfl, rfl, rfl⟩

/-- Helper: agreement below composes. -/
theorem agrees_trans {h₀ h1 h2 : Heap} {n m : Nat} (h01 : AgreesBelow h₀ h1 n)
    (h12 : AgreesBelow h1 h2 m) (hnm : n ≤ m) : AgreesBelow h₀ h2 n := by
  intro l hl
  obtain ⟨a1, a2, a3⟩ := h01 l hl
  obtain ⟨b1, b2, b3⟩ := h12 l (by omega)
  exact ⟨b1.trans a1, b2.trans a2, b3.trans a3⟩

/-- Helper: one simulator-loop step writes only at or above `n`. -/
theorem stepH_safe (h₀ : Heap) (n : Nat) (h : Heap) (d : Nat) (t : String)
    (hA : AgreesBelow h₀ h n) (hnext : n ≤ h.next) (hd : n ≤ d)
    (hf : FieldsGE (h.dicts d) n) :
    AgreesBelow h₀ (stepH h d t).1 n ∧ n ≤ (stepH h d t).1.next ∧
      FieldsGE ((stepH h d t).1.dicts d) n := by
  unfold stepH
  rcases normalizeParts t with _ | ⟨v, _ | ⟨b, rest⟩⟩
  · exact ⟨hA, hnext, hf⟩
  · exact ⟨hA, hnext, hf⟩
  · simp only []
    by_cases h1 : pyLower v = "pickup"
    · rw [if_pos h1]
      exact pickupH_safe h₀ n h d b hA hnext hd hf
    · rw [if_neg h1]
      by_cases h2 : pyLower v = "putdown"
      · rw [if_pos h2]
        exact putdownH_safe h₀ n h d b hA hnext hd hf
      · rw [if_neg h2]
        by_cases h3 : pyLower v = "stack"
        · rw [if_pos h3]
          rcases rest with _ | ⟨b2, rest'⟩
          · exact ⟨hA, hnext, hf⟩
          · exact stackH_safe h₀ n h d b b2 hA hnext hd hf
        · rw [if_neg h3]
          by_cases h4 : pyLower v = "unstack"
          · rw [if_pos h4]
            rcases rest with _ | ⟨b2, rest'⟩
            · exact ⟨hA, hnext, hf⟩
            · exact unstackH_safe h₀ n h d b b2 hA hnext hd hf
          · rw [if_neg h4]
            exact ⟨hA, hnext, hf⟩

/-- Helper: the token loop writes only at or above `n`. -/
theorem runH_safe (h₀ : Heap) (n : Nat) (d : Nat) (hd : n ≤ d) :
    ∀ (toks : List String) (h : Heap), AgreesBelow h₀ h n → n ≤ h.next →
      FieldsGE (h.dicts d) n →
      AgreesBelow h₀ (runH d h toks).1 n ∧ n ≤ (runH d h toks).1.next := by
  intro toks
  induction toks with
  | nil =>
    intro h hA hnext _
    exact ⟨hA, hnext⟩
  | cons t ts ih =>
    intro h hA hnext hf
    obtain ⟨A1, N1, F1⟩ := stepH_safe h₀ n h d t hA hnext hd hf
    rw [runH]
    rcases hr : (stepH h d t).2 with _ | e
    · exact ih (stepH h d t).1 A1 N1 F1
    · exact ⟨A1, N1⟩

/-- Helper: copying one list field allocates only fresh cells. -/
theorem copyListField_safe (h₀ : Heap) (n : Nat) (h : Heap) (o : Option Nat)
    (hA : AgreesBelow h₀ h n) (hn : n ≤ h.next) :
    AgreesBelow h₀ (copyListField h o).1 n ∧ n ≤ (copyListField h o).1.next ∧
      (∀ l, (copyListField h o).2 = some l → n ≤ l) := by
  unfold copyListField
  rcases o with _ | l
  · exact ⟨hA, hn, by intro l hl; cases hl⟩
  · simp only []
    refine ⟨allocList_agrees h₀ h n hA hn _, ?_, ?_⟩
    · show n ≤ h.next + 1
      omega
    · intro l' hl'
      simp only [Option.some.injEq] at hl'
      subst hl'
      show n ≤ h.next
      exact hn

/-- Helper: copying one pair-list field allocates only fresh cells. -/
theorem copyPairsField_safe (h₀ : Heap) (n : Nat) (h : Heap) (o : Option Nat)
    (hA : AgreesBelow h₀ h n) (hn : n ≤ h.next) :
    AgreesBelow h₀ (copyPairsField h o).1 n ∧ n ≤ (copyPairsField h o).1.next ∧
      (∀ l, (copyPairsField h o).2 = some l → n ≤ l) := by
  unfold copyPairsField
  rcases o with _ | l
  · exact ⟨hA, hn, by intro l hl; cases hl⟩
  · simp only []
    refine ⟨allocPairs_agrees h₀ h n hA hn _, ?_, ?_⟩
    · show n ≤ h.next + 1
      omega
    · intro l' hl'
      simp only [Option.some.injEq] at hl'
      subst hl'
      show n ≤ h.next
      exact hn

/-- Helper: `copy.deepcopy` touches nothing already allocated and yields a
dict whose fields are all fresh. -/
theorem deepcopyDict_safe (h : Heap) (d : Nat) :
    AgreesBelow h (deepcopyDict h d).1 h.next ∧
      h.next ≤ (deepcopyDict h d).1.next ∧
      h.next ≤ (deepcopyDict h d).2 ∧
      FieldsGE ((deepcopyDict h d).1.dicts (deepcopyDict h d).2) h.next := by
  obtain ⟨C1A, C1N, C1L⟩ :=
    copyListField_safe h h.next h (h.dicts d).ontable (agrees_refl h h.next)
      (le_refl _)
  obtain ⟨C2A, C2N, C2L⟩ :=
    copyListField_safe h h.next (copyListField h (h.dicts d).ontable).1
      (h.dicts d).clear C1A C1N
  obtain ⟨C3A, C3N, C3L⟩ :=
    copyListField_safe h h.next
      (copyListField (copyListField h (h.dicts d).ontable).1 (h.dicts d).clear).1
      (h.dicts d).holding C2A C2N
  obtain ⟨C4A, C4N, C4L⟩ :=
    copyPairsField_safe h h.next
      (copyListField
        (copyListField (copyListField h (h.dicts d).ontable).1 (h.dicts d).clear).1
        (h.dicts d).holding).1
      (h.dicts d).onRel C3A C3N
  unfold deepcopyDict
  simp only []
  refine ⟨allocDict_agrees h _ h.next C4A C4N _, ?_, ?_, ?_⟩
  · show h.next ≤
      (copyPairsField
        (copyListField
          (copyListField (copyListField h (h.dicts d).ontable).1 (h.dicts d).clear).1
          (h.dicts d).holding).1
        (h.dicts d).onRel).1.next + 1
    omega
  · show h.next ≤
      (copyPairsField
        (copyListField
          (copyListField (copyListField h (h.dicts d).ontable).1 (h.dicts d).clear).1
          (h.dicts d).holding).1
        (h.dicts d).onRel).1.next
    exact C4N
  · simp only [allocDict]
    rw [updF_self]
    exact ⟨C1L, C2L, C3L, C4L⟩

/-- Helper: `_update_state_after_plan` at the heap level leaves every
already-allocated object untouched, for any dict location and tokens. -/
theorem update_heap_safe (h : Heap) (d : Nat) (toks : List String) :
    AgreesBelow h (update_heap h d toks).1 h.next ∧
      h.next ≤ (update_heap h d toks).1.next := by
  obtain ⟨DA, DN, DL, DF⟩ := deepcopyDict_safe h d
  unfold update_heap
  exact runH_safe h h.next (deepcopyDict h d).2 DL toks (deepcopyDict h d).1 DA DN DF

/-- Helper: the subgoal loop of heap-level `plan` writes only at or above
`n`. -/
theorem planLoopH_safe (solve : Subgoal → Option WorldState → Bool × List String)
    (adapt : Subgoal → String → Subgoal) (n : Nat) (h₀ : Heap) :
    ∀ (sgs : List Subgoal) (h : Heap) (cur : Option Nat) (acc : List String),
      AgreesBelow h₀ h n → n ≤ h.next →
      AgreesBelow h₀ (planLoopH solve adapt h cur sgs acc).1 n ∧
        n ≤ (planLoopH solve adapt h cur sgs acc).1.next := by
  intro sgs
  induction sgs with
  | nil =>
    intro h cur acc hA hn
    exact ⟨hA, hn⟩
  | cons sg rest ih =>
    intro h cur acc hA hn
    rw [planLoopH.eq_def]
    simp only []
    by_cases hok : (solve_subgoal_with_retry solve adapt sg (readDictH h cur) 3).1
    · rw [if_pos hok]
      rcases cur with _ | dl
      · simp only []
        rcases hu : updateNoneExn
            (solve_subgoal_with_retry solve adapt sg (readDictH h none) 3).2 with _ | e
        · exact ih h none _ hA hn
        · exact ⟨hA, hn⟩
      · simp only []
        obtain ⟨UA, UN⟩ := update_heap_safe h dl
          (solve_subgoal_with_retry solve adapt sg (readDictH h (some dl)) 3).2
        have hA' := agrees_trans hA UA hn
        have hn' := le_trans hn UN
        rcases hu : (update_heap h dl
            (solve_subgoal_with_retry solve adapt sg (readDictH h (some dl)) 3).2).2
          with _ | e
        · exact ih _ none _ hA' hn'
        · exact ⟨hA', hn'⟩
    · rw [if_neg hok]
      exact ⟨hA, hn⟩

/-- Helper: heap-level `plan` leaves every already-allocated object
untouched. -/
theorem planH_safe (solve : Subgoal → Option WorldState → Bool × List String)
    (adapt : Subgoal → String → Subgoal) (h : Heap) (d : Nat)
    (sgs : List Subgoal) :
    AgreesBelow h (planH solve adapt h d sgs).1 h.next ∧
      h.next ≤ (planH solve adapt h d sgs).1.next := by
  unfold planH
  simp only []
  refine planLoopH_safe solve adapt h.next h sgs (allocDict h (h.dicts d)).1
    (some (allocDict h (h.dicts d)).2) []
    (allocDict_agrees h h h.next (agrees_refl h h.next) (le_refl _) _) ?_
  show h.next ≤ h.next + 1
  omega

/-- C8: neither `plan` nor `_update_state_after_plan` mutates the caller's
state object: for a well-formed caller heap (the dict and the cells it
references were allocated before the call), after either call the caller's
dict object and every list object it references hold exactly their old
values — the deep copy (and `dict.copy()` in `plan`) direct every write to
freshly allocated objects. -/
theorem plan_and_update_do_not_mutate_caller (h₀ : Heap) (d : Nat)
    (hd : d < h₀.next) (hf : DictLocsBelow (h₀.dicts d) h₀.next) :
    (∀ toks : List String,
      (update_heap h₀ d toks).1.dicts d = h₀.dicts d ∧
      (∀ l, (h₀.dicts d).ontable = some l ∨ (h₀.dicts d).clear = some l ∨
          (h₀.dicts d).holding = some l →
        (update_heap h₀ d toks).1.lists l = h₀.lists l) ∧
      (∀ l, (h₀.dicts d).onRel = some l →
        (update_heap h₀ d toks).1.plists l = h₀.plists l)) ∧
    (∀ (solve : Subgoal → Option WorldState → Bool × List String)
        (adapt : Subgoal → String → Subgoal) (sgs : List Subgoal),
      (planH solve adapt h₀ d sgs).1.dicts d = h₀.dicts d ∧
      (∀ l, (h₀.dicts d).ontable = some l ∨ (h₀.dicts d).clear = some l ∨
          (h₀.dicts d).holding = some l →
        (planH solve adapt h₀ d sgs).1.lists l = h₀.lists l) ∧
      (∀ l, (h₀.dicts d).onRel = some l →
        (planH solve adapt h₀ d sgs).1.plists l = h₀.plists l)) := by
  obtain ⟨fo, fc, fh, fr⟩ := hf
  constructor
  · intro toks
    obtain ⟨UA, _⟩ := update_heap_safe h₀ d toks
    refine ⟨(UA d hd).2.2, ?_, ?_⟩
    · intro l hl
      have hlt : l < h₀.next := by
        rcases hl with hl | hl | hl
        exacts [fo l hl, fc l hl, fh l hl]
      exact (UA l hlt).1
    · intro l hl
      exact (UA l (fr l hl)).2.1
  · intro solve adapt sgs
    obtain ⟨PA, _⟩ := planH_safe solve adapt h₀ d sgs
    refine ⟨(PA d hd).2.2, ?_, ?_⟩
    · intro l hl
      have hlt : l < h₀.next := by
        rcases hl with hl | hl | hl
        exacts [fo l hl, fc l hl, fh l hl]
      exact (PA l hlt).1
    · intro l hl
      exact (PA l (fr l hl)).2.1

/-- C8 witness: a concrete five-object caller heap, one simulated token,
and a one-subgoal plan run. -/
theorem plan_and_update_do_not_mutate_caller_witness :
    (update_heap exHeap 4 ["pickup a"]).1.dicts 4 = exHeap.dicts 4 ∧
    (update_heap exHeap 4 ["pickup a"]).1.lists 0 = exHeap.lists 0 ∧
    (planH (fun _ _ => (true, ["pickup a"])) (fun g _ => g) exHeap 4
      [cSub1]).1.dicts 4 = exHeap.dicts 4 := by
  have h := plan_and_update_do_not_mutate_caller exHeap 4 (by decide) (by decide)
  exact ⟨(h.1 ["pickup a"]).1, (h.1 ["pickup a"]).2.1 0 (Or.inl rfl),
    (h.2 (fun _ _ => (true, ["pickup a"])) (fun g _ => g) [cSub1]).1⟩
